import Mathlib

/-!
Verification of the tape-cartridge codec of the Living-TV-Show repository.

The embedding models the TypeScript source of src/utils/tapeUtils.ts (crc32,
createChunk, createTapeBlob, readTapeData) and the schema-normalization code
of src/pages/Lobby.tsx and src/App.tsx.  Byte buffers (JS Uint8Array) are
modelled as List Nat whose entries are below 256 (every write the source
performs is masked with an explicit percent-256, mirroring the source's
ampersand-0xff masks / Uint8Array stores); buffer positions are modelled as
Int because the source computes chunk lengths with the signed JS left-shift,
so the loop variable can fail to advance.  JS strings are modelled as
List Char; the platform builtins TextEncoder/TextDecoder, JSON.stringify and
JSON.parse are modelled explicitly below (they are not repository code).
-/

namespace Tape

/-- Signed 32-bit reinterpretation of a natural number, as produced by the JS
bitwise operators: the value is reduced mod 2^32 and values at or above 2^31
become negative. -/
def toInt32 (n : Nat) : Int :=
  if n % 4294967296 < 2147483648 then ((n % 4294967296 : Nat) : Int)
  else ((n % 4294967296 : Nat) : Int) - 4294967296

/-- Indexed read from a JS Uint8Array: out-of-range and negative indices give
undefined, modelled as none. -/
def byteAt (b : List Nat) (i : Int) : Option Nat :=
  if 0 ≤ i then b.get? i.toNat else none

/-- A byte read used inside JS shift arithmetic: ToInt32(undefined) is 0, so a
missing byte contributes 0. -/
def byte0 (b : List Nat) (i : Int) : Nat :=
  (byteAt b i).getD 0

/-- Big-endian 4-byte encoding of a 32-bit value, as written by the source
with (x >>> 24) & 0xff ... x & 0xff (the JS >>> first reduces mod 2^32). -/
def be32 (x : Nat) : List Nat :=
  [x % 4294967296 / 16777216 % 256,
   x % 4294967296 / 65536 % 256,
   x % 4294967296 / 256 % 256,
   x % 4294967296 % 256]

/-- Relative-index resolution of TypedArray.prototype.slice: negative indices
count from the end, indices are clamped to the array length. -/
def jsIndex (len : Nat) (i : Int) : Nat :=
  if i < 0 then ((len : Int) + i).toNat else min i.toNat len

/-- TypedArray.prototype.slice(s, e) on a byte buffer. -/
def jsSlice (b : List Nat) (s e : Int) : List Nat :=
  (b.take (jsIndex b.length e)).drop (jsIndex b.length s)

/-- The 4-byte big-endian chunk length field read at position pos, exactly as
the source computes it: (b[pos] << 24) | (b[pos+1] << 16) | (b[pos+2] << 8) |
b[pos+3].  With byte values the OR has no overlapping bits, so the JS result
is the signed-32-bit view of the weighted sum. -/
def readLen (b : List Nat) (pos : Int) : Int :=
  toInt32 (byte0 b pos % 256 * 16777216 + byte0 b (pos + 1) % 256 * 65536 +
    byte0 b (pos + 2) % 256 * 256 + byte0 b (pos + 3) % 256)

/-- The chunk type bytes at position pos: the source decodes
uint8.slice(pos+4, pos+8) with TextDecoder and compares the string to "IEND"
or "tEXt"; since those are ASCII and UTF-8 decoding is injective on exact
ASCII targets, the comparison is modelled on the raw byte slice. -/
def typeAt (b : List Nat) (pos : Int) : List Nat :=
  jsSlice b (pos + 4) (pos + 8)

/-- The 8-byte PNG signature. -/
def pngSignature : List Nat := [137, 80, 78, 71, 13, 10, 26, 10]

/-- ASCII bytes of the chunk type "IEND". -/
def iendType : List Nat := [73, 69, 78, 68]

/-- ASCII bytes of the chunk type "tEXt". -/
def tEXtType : List Nat := [116, 69, 88, 116]

/-- ASCII bytes of the sentinel keyword "LIVING_TV_DATA". -/
def keywordBytes : List Nat :=
  [76, 73, 86, 73, 78, 71, 95, 84, 86, 95, 68, 65, 84, 65]

/-! ## CRC-32 engine (tapeUtils.ts lines 4-24) -/

/-- One round of the table-building loop: if the low bit is set, XOR the
reversed PNG polynomial into the right-shifted value, else just shift. -/
def crcStep (c : Nat) : Nat :=
  if c % 2 = 1 then 0xedb88320 ^^^ c / 2 else c / 2

/-- Entry n of the CRC table: 8 rounds of crcStep applied to n. -/
def crcTableEntry (n : Nat) : Nat :=
  crcStep (crcStep (crcStep (crcStep (crcStep (crcStep (crcStep (crcStep n)))))))

/-- The precomputed 256-entry CRC table (the source's module-level
Uint32Array). -/
def crcTable : List Nat := (List.range 256).map crcTableEntry

/-- crc32 of a byte buffer: accumulator seeded with 0xFFFFFFFF, per byte
c := table[(c ^ byte) & 0xff] ^ (c >>> 8), final XOR with 0xFFFFFFFF.
The JS value is an Int32; the source always consumes it through >>> shifts,
i.e. through its unsigned 32-bit view, which this Nat models. -/
def crc32 (buf : List Nat) : Nat :=
  (buf.foldl (fun c b => crcTable.getD ((c ^^^ b) % 256) 0 ^^^ c / 256)
    0xffffffff) ^^^ 0xffffffff

/-- Modelled from the spec: the CRC-32/PNG computation as the specification
words it (table built by polynomial 0xEDB88320, accumulator seeded with
0xFFFFFFFF, per-byte update table[(acc XOR byte) & 0xFF] XOR (acc >> 8),
final XOR 0xFFFFFFFF), written as a direct recursion with the table entries
recomputed on demand rather than read from the precomputed array. -/
def crcSpecGo : List Nat → Nat → Nat
  | [], acc => acc ^^^ 0xffffffff
  | b :: bs, acc => crcSpecGo bs (crcTableEntry ((acc ^^^ b) % 256) ^^^ acc / 256)

/-- Modelled from the spec: full CRC-32/PNG checksum. -/
def crcSpec (buf : List Nat) : Nat := crcSpecGo buf 0xffffffff

/-! ## Chunk builder (tapeUtils.ts createChunk, lines 37-65) -/

/-- createChunk(type, data): length (4 bytes BE) ++ type ++ data ++ crc
(4 bytes BE) where the crc covers type ++ data. -/
def createChunk (tyBytes data : List Nat) : List Nat :=
  be32 data.length ++ (tyBytes ++ data) ++ be32 (crc32 (tyBytes ++ data))

/-! ## JSON values

Payloads are modelled by a mutual inductive of JSON documents.  Two deliberate
fragment restrictions against full ECMAScript JSON, both outside what a
shallow embedding can carry: numbers are exact integers (JS numbers are IEEE
doubles) and strings are sequences of Unicode scalar values (JS strings may
hold lone surrogates).  Objects are ordered key/value lists, as produced and
consumed by the serializer. -/

mutual

inductive Json where
  | null : Json
  | bool : Bool → Json
  | num : Int → Json
  | str : List Char → Json
  | arr : JsonList → Json
  | obj : JsonObj → Json
deriving DecidableEq

inductive JsonList where
  | nil : JsonList
  | cons : Json → JsonList → JsonList
deriving DecidableEq

inductive JsonObj where
  | nil : JsonObj
  | cons : List Char → Json → JsonObj → JsonObj
deriving DecidableEq

end

/-- JS truthiness of a decoded JSON value: null, false, 0 and the empty
string are falsy, everything else (including empty arrays and objects) is
truthy. -/
def truthy : Json → Bool
  | .null => false
  | .bool b => b
  | .num n => n != 0
  | .str s => !s.isEmpty
  | .arr _ => true
  | .obj _ => true

/-! ## JSON.stringify model

JSON.stringify on the modelled fragment: no whitespace, strings quoted with
the standard escapes (the short escapes for the named controls, lowercase
unicode escapes for the remaining controls), integers in decimal. -/

def digitChar (d : Nat) : Char := Char.ofNat (48 + d)

/-- Lowercase hexadecimal digit, as JS Number.prototype.toString(16). -/
def hexChar (d : Nat) : Char :=
  if d < 10 then Char.ofNat (48 + d) else Char.ofNat (87 + d)

def natToCharsGo : Nat → Nat → List Char → List Char
  | 0, _, acc => acc
  | fuel + 1, n, acc =>
    if n = 0 then acc else natToCharsGo fuel (n / 10) (digitChar (n % 10) :: acc)

def natToChars (n : Nat) : List Char :=
  if n = 0 then ['0'] else natToCharsGo n n []

def intToChars (n : Int) : List Char :=
  if n < 0 then '-' :: natToChars (-n).toNat else natToChars n.toNat

/-- The escape of one character inside a JSON string literal. -/
def escChar (c : Char) : List Char :=
  if c = '"' then ['\\', '"']
  else if c = '\\' then ['\\', '\\']
  else if c.toNat = 8 then ['\\', 'b']
  else if c.toNat = 12 then ['\\', 'f']
  else if c.toNat = 10 then ['\\', 'n']
  else if c.toNat = 13 then ['\\', 'r']
  else if c.toNat = 9 then ['\\', 't']
  else if c.toNat < 32 then
    ['\\', 'u', '0', '0', hexChar (c.toNat / 16), hexChar (c.toNat % 16)]
  else [c]

def escape : List Char → List Char
  | [] => []
  | c :: cs => escChar c ++ escape cs

def quoteStr (s : List Char) : List Char := '"' :: (escape s ++ ['"'])

mutual

def stringify : Json → List Char
  | .null => 'n' :: 'u' :: 'l' :: 'l' :: []
  | .bool true => 't' :: 'r' :: 'u' :: 'e' :: []
  | .bool false => 'f' :: 'a' :: 'l' :: 's' :: 'e' :: []
  | .num n => intToChars n
  | .str s => quoteStr s
  | .arr .nil => ['[', ']']
  | .arr (.cons v vs) => '[' :: (stringify v ++ stringifyElems vs) ++ [']']
  | .obj .nil => ['{', '}']
  | .obj (.cons k v m) =>
    '{' :: (quoteStr k ++ ':' :: stringify v ++ stringifyMembers m) ++ ['}']

def stringifyElems : JsonList → List Char
  | .nil => []
  | .cons v vs => ',' :: (stringify v ++ stringifyElems vs)

def stringifyMembers : JsonObj → List Char
  | .nil => []
  | .cons k v m => ',' :: (quoteStr k ++ ':' :: stringify v ++ stringifyMembers m)

end

/-! ## UTF-8 model (TextEncoder / TextDecoder)

TextEncoder on scalar values; TextDecoder in its default non-fatal mode,
which never throws and substitutes U+FFFD on malformed input.  The theorems
only exercise the decoder on valid encodings and on ASCII bytes. -/

def utf8EncodeChar (c : Char) : List Nat :=
  let n := c.toNat
  if n < 128 then [n]
  else if n < 2048 then [192 + n / 64, 128 + n % 64]
  else if n < 65536 then [224 + n / 4096, 128 + n / 64 % 64, 128 + n % 64]
  else [240 + n / 262144, 128 + n / 4096 % 64, 128 + n / 64 % 64, 128 + n % 64]

def utf8Encode : List Char → List Nat
  | [] => []
  | c :: cs => utf8EncodeChar c ++ utf8Encode cs

/-- The replacement character U+FFFD. -/
def repl : Char := Char.ofNat 65533

def isCont (b : Nat) : Bool := 128 ≤ b && b ≤ 191

/-- Second-byte constraint of a 3-byte sequence (excludes overlong forms and
surrogates). -/
def utf8Second (b b2 : Nat) : Bool :=
  if b = 224 then 160 ≤ b2 && b2 ≤ 191
  else if b = 237 then 128 ≤ b2 && b2 ≤ 159
  else isCont b2

/-- Second-byte constraint of a 4-byte sequence (excludes overlong forms and
values above U+10FFFF). -/
def utf8SecondF (b b2 : Nat) : Bool :=
  if b = 240 then 144 ≤ b2 && b2 ≤ 191
  else if b = 244 then 128 ≤ b2 && b2 ≤ 143
  else isCont b2

def utf8DecodeGo : Nat → List Nat → List Char
  | 0, _ => []
  | _, [] => []
  | fuel + 1, b :: bs =>
    if b < 128 then Char.ofNat b :: utf8DecodeGo fuel bs
    else if 194 ≤ b && b ≤ 223 then
      match bs with
      | b2 :: r =>
        if isCont b2 then
          Char.ofNat ((b - 192) * 64 + (b2 - 128)) :: utf8DecodeGo fuel r
        else repl :: utf8DecodeGo fuel (b2 :: r)
      | [] => [repl]
    else if 224 ≤ b && b ≤ 239 then
      match bs with
      | b2 :: b3 :: r =>
        if utf8Second b b2 && isCont b3 then
          Char.ofNat ((b - 224) * 4096 + (b2 - 128) * 64 + (b3 - 128)) ::
            utf8DecodeGo fuel r
        else repl :: utf8DecodeGo fuel (b2 :: b3 :: r)
      | rest => repl :: utf8DecodeGo fuel rest
    else if 240 ≤ b && b ≤ 244 then
      match bs with
      | b2 :: b3 :: b4 :: r =>
        if utf8SecondF b b2 && isCont b3 && isCont b4 then
          Char.ofNat ((b - 240) * 262144 + (b2 - 128) * 4096 + (b3 - 128) * 64
            + (b4 - 128)) :: utf8DecodeGo fuel r
        else repl :: utf8DecodeGo fuel (b2 :: b3 :: b4 :: r)
      | rest => repl :: utf8DecodeGo fuel rest
    else repl :: utf8DecodeGo fuel bs

/-- Each decoding step consumes at least one byte, so the input length is
enough fuel. -/
def utf8Decode (l : List Nat) : List Char := utf8DecodeGo l.length l

/-! ## JSON.parse model

A fueled recursive-descent parser for the JSON grammar on the modelled
fragment.  Out-of-fragment inputs (numbers with fraction or exponent parts,
unicode escapes denoting surrogates) are rejected rather than approximated.
The fuel passed by jsonParse is the input length plus one; the round-trip
theorems prove this is enough for every serialized document. -/

def hexVal? (c : Char) : Option Nat :=
  if 48 ≤ c.toNat ∧ c.toNat ≤ 57 then some (c.toNat - 48)
  else if 97 ≤ c.toNat ∧ c.toNat ≤ 102 then some (c.toNat - 87)
  else if 65 ≤ c.toNat ∧ c.toNat ≤ 70 then some (c.toNat - 55)
  else none

def isWsChar (c : Char) : Bool :=
  c = ' ' || c = '\t' || c = '\n' || c = Char.ofNat 13

def skipWs : List Char → List Char
  | [] => []
  | c :: cs => if isWsChar c then skipWs cs else c :: cs

def parseStringBody : List Char → Option (List Char × List Char)
  | [] => none
  | c :: r =>
    if c = '"' then some ([], r)
    else if c = '\\' then
      match r with
      | [] => none
      | e :: r2 =>
        if e = '"' then (parseStringBody r2).map (fun p => ('"' :: p.1, p.2))
        else if e = '\\' then (parseStringBody r2).map (fun p => ('\\' :: p.1, p.2))
        else if e = '/' then (parseStringBody r2).map (fun p => ('/' :: p.1, p.2))
        else if e = 'b' then
          (parseStringBody r2).map (fun p => (Char.ofNat 8 :: p.1, p.2))
        else if e = 'f' then
          (parseStringBody r2).map (fun p => (Char.ofNat 12 :: p.1, p.2))
        else if e = 'n' then
          (parseStringBody r2).map (fun p => (Char.ofNat 10 :: p.1, p.2))
        else if e = 'r' then
          (parseStringBody r2).map (fun p => (Char.ofNat 13 :: p.1, p.2))
        else if e = 't' then
          (parseStringBody r2).map (fun p => (Char.ofNat 9 :: p.1, p.2))
        else if e = 'u' then
          match r2 with
          | h1 :: h2 :: h3 :: h4 :: r3 =>
            match hexVal? h1, hexVal? h2, hexVal? h3, hexVal? h4 with
            | some a, some b, some c, some d =>
              let n := a * 4096 + b * 256 + c * 16 + d
              if n < 55296 ∨ 57344 ≤ n then
                (parseStringBody r3).map (fun p => (Char.ofNat n :: p.1, p.2))
              else none
            | _, _, _, _ => none
          | _ => none
        else none
    else if c.toNat < 32 then none
    else (parseStringBody r).map (fun p => (c :: p.1, p.2))

def charsToNat (ds : List Char) : Nat :=
  ds.foldl (fun a c => a * 10 + (c.toNat - 48)) 0

def parseNumber (cs : List Char) : Option (Nat × List Char) :=
  let ds := cs.takeWhile Char.isDigit
  let rest := cs.dropWhile Char.isDigit
  if ds.isEmpty then none
  else if ds.head? = some '0' ∧ ds.length ≠ 1 then none
  else
    match rest with
    | c :: _ =>
      if c = '.' ∨ c = 'e' ∨ c = 'E' then none else some (charsToNat ds, rest)
    | [] => some (charsToNat ds, [])

mutual

def parseValue : Nat → List Char → Option (Json × List Char)
  | 0, _ => none
  | fuel + 1, cs =>
    match skipWs cs with
    | [] => none
    | c :: r =>
      if c = 'n' then
        match r with
        | 'u' :: 'l' :: 'l' :: r2 => some (.null, r2)
        | _ => none
      else if c = 't' then
        match r with
        | 'r' :: 'u' :: 'e' :: r2 => some (.bool true, r2)
        | _ => none
      else if c = 'f' then
        match r with
        | 'a' :: 'l' :: 's' :: 'e' :: r2 => some (.bool false, r2)
        | _ => none
      else if c = '"' then
        match parseStringBody r with
        | some (s, r2) => some (.str s, r2)
        | none => none
      else if c = '[' then
        if (skipWs r).head? = some ']' then some (.arr .nil, (skipWs r).tail)
        else
          match parseElems fuel (skipWs r) with
          | some (vs, r2) => some (.arr vs, r2)
          | none => none
      else if c = '{' then
        if (skipWs r).head? = some '}' then some (.obj .nil, (skipWs r).tail)
        else
          match parseMembers fuel (skipWs r) with
          | some (m, r2) => some (.obj m, r2)
          | none => none
      else if c = '-' then
        match parseNumber r with
        | some (m, r2) => some (.num (-(m : Int)), r2)
        | none => none
      else if c.isDigit then
        match parseNumber (c :: r) with
        | some (m, r2) => some (.num (m : Int), r2)
        | none => none
      else none

def parseElems : Nat → List Char → Option (JsonList × List Char)
  | 0, _ => none
  | fuel + 1, cs =>
    match parseValue fuel cs with
    | some (v, r) =>
      match skipWs r with
      | ',' :: r2 =>
        match parseElems fuel r2 with
        | some (vs, r3) => some (.cons v vs, r3)
        | none => none
      | ']' :: r2 => some (.cons v .nil, r2)
      | _ => none
    | none => none

def parseMembers : Nat → List Char → Option (JsonObj × List Char)
  | 0, _ => none
  | fuel + 1, cs =>
    match skipWs cs with
    | '"' :: r =>
      match parseStringBody r with
      | some (k, r2) =>
        match skipWs r2 with
        | ':' :: r3 =>
          match parseValue fuel r3 with
          | some (v, r4) =>
            match skipWs r4 with
            | ',' :: r5 =>
              match parseMembers fuel r5 with
              | some (m, r6) => some (.cons k v m, r6)
              | none => none
            | '}' :: r5 => some (.cons k v .nil, r5)
            | _ => none
          | none => none
        | _ => none
      | none => none
    | _ => none

end

def jsonParse (cs : List Char) : Option Json :=
  match parseValue (cs.length + 1) cs with
  | some (v, r) => if (skipWs r).isEmpty then some v else none
  | none => none

/-! ## Cartridge embed / extract (tapeUtils.ts lines 70-171)

The while loops of createTapeBlob and readTapeData need not terminate (a
length field with the high bit set can keep the position from advancing), so
both are modelled with an explicit fuel parameter; a result of none means the
loop was still running after the given number of iterations.  Everything else
is a direct transcription. -/

/-- The error cases the source throws. -/
inductive TapeErr where
  | notAPng : TapeErr
  | iendNotFound : TapeErr
  | noTapeData : TapeErr
deriving DecidableEq

deriving instance DecidableEq for Except

/-- The insertion-point search of createTapeBlob (lines 93-104): starting at
pos, read the length field and the type; stop at the first IEND chunk, else
advance by 8 + len + 4. -/
def findIendAux (b : List Nat) : Nat → Int → Option (Option Int)
  | 0, _ => none
  | fuel + 1, pos =>
    if pos < (b.length : Int) then
      let len := readLen b pos
      if typeAt b pos = iendType then some (some pos)
      else findIendAux b fuel (pos + 8 + len + 4)
    else some none

/-- The null-separator search inside a tEXt chunk (lines 140-146): the first
k below len with b[dataStart + k] strictly equal to 0 (an out-of-range read
gives undefined, which is not 0). -/
def findNull (b : List Nat) (dataStart len : Int) : Option Nat :=
  (List.range len.toNat).find? (fun k => byteAt b (dataStart + k) == some 0)

/-- One payload candidate: the processing the readTapeData loop performs on a
tEXt chunk at pos with length field len, returning the replacement for the
foundData accumulator (the accumulator is kept when the keyword does not
match or JSON parsing fails). -/
def scanChunkData (b : List Nat) (pos len : Int) (found : Option Json) :
    Option Json :=
  let dataStart := pos + 8
  match findNull b dataStart len with
  | some nullByte =>
    if jsSlice b dataStart (dataStart + nullByte) = keywordBytes then
      match jsonParse (utf8Decode (jsSlice b (dataStart + (nullByte : Int) + 1)
          (dataStart + len))) with
      | some v => some v
      | none => found
    else found
  | none => found

/-- The scanning loop of readTapeData (lines 132-163).  The result pairs the
final foundData accumulator with whether the loop stopped at an IEND chunk
(true) or by exhausting the buffer (false). -/
def scanAux (b : List Nat) : Nat → Int → Option Json → Option (Option Json × Bool)
  | 0, _, _ => none
  | fuel + 1, pos, found =>
    if pos < (b.length : Int) then
      let len := readLen b pos
      let ty := typeAt b pos
      let found' := if ty = tEXtType then scanChunkData b pos len found else found
      if ty = iendType then some (found', true)
      else scanAux b fuel (pos + 8 + len + 4) found'
    else some (found, false)

/-- The tEXt chunk data built by createTapeBlob (lines 80-85): keyword, null
separator, then the UTF-8 bytes of the serialized payload. -/
def tapeChunkData (stateData : Json) : List Nat :=
  keywordBytes ++ [0] ++ utf8Encode (stringify stateData)

/-- The complete chunk createTapeBlob splices in (line 87). -/
def tapeChunk (stateData : Json) : List Nat :=
  createChunk tEXtType (tapeChunkData stateData)

/-- createTapeBlob (lines 70-115): verify the signature, build the tEXt
chunk, find the IEND offset, and splice the chunk in immediately before it.
The construction on lines 109-112 (a fresh buffer filled by three set calls)
is the concatenation of the two slices around the new chunk. -/
def createTapeBlob (fuel : Nat) (b : List Nat) (stateData : Json) :
    Option (Except TapeErr (List Nat)) :=
  if b.take 8 ≠ pngSignature then some (.error .notAPng)
  else
    match findIendAux b fuel 8 with
    | none => none
    | some none => some (.error .iendNotFound)
    | some (some iendPos) =>
      some (.ok (jsSlice b 0 iendPos ++ tapeChunk stateData ++
        jsSlice b iendPos b.length))

/-- readTapeData (lines 120-171): verify the signature, scan the chunks, and
fail with the generic not-found error when the accumulated foundData is falsy
(the source tests it with JS negation). -/
def readTapeData (fuel : Nat) (b : List Nat) : Option (Except TapeErr Json) :=
  if b.take 8 ≠ pngSignature then some (.error .notAPng)
  else
    match scanAux b fuel 8 none with
    | none => none
    | some (found, _) =>
      match found with
      | some v => if truthy v then some (.ok v) else some (.error .noTapeData)
      | none => some (.error .noTapeData)

/-! ## Schema normalization (Lobby.tsx lines 63-103, App.tsx lines 162-210) -/

/-- Association lookup in a JSON object, last occurrence wins is irrelevant
here; the source only reads keys of objects it just built or branched on. -/
def objLookup : JsonObj → List Char → Option Json
  | .nil, _ => none
  | .cons k v m, key => if k = key then some v else objLookup m key

/-- Property read on a JSON value, as JS member access on a decoded JSON
value: objects yield the property or undefined (none); primitives and arrays
have no own properties of the keys used here. -/
def jLookup : Json → List Char → Option Json
  | .obj m, key => objLookup m key
  | _, _ => none

/-- The JS expression: the string engineState occurs as a key of rawData
(the source tests it with the in operator on the decoded object). -/
def hasEngineState (rawData : Json) : Bool :=
  (jLookup rawData ('e' :: 'n' :: 'g' :: 'i' :: 'n' :: 'e' :: 'S' :: 't' ::
    'a' :: 't' :: 'e' :: [])).isSome

def engineStateKey : List Char :=
  'e' :: 'n' :: 'g' :: 'i' :: 'n' :: 'e' :: 'S' :: 't' :: 'a' :: 't' :: 'e' :: []

def metaKey : List Char := 'm' :: 'e' :: 't' :: 'a' :: []

def versionKey : List Char := 'v' :: 'e' :: 'r' :: 's' :: 'i' :: 'o' :: 'n' :: []

def characterNameKey : List Char :=
  'c' :: 'h' :: 'a' :: 'r' :: 'a' :: 'c' :: 't' :: 'e' :: 'r' :: 'N' :: 'a' ::
    'm' :: 'e' :: []

def historyKey : List Char :=
  'h' :: 'i' :: 's' :: 't' :: 'o' :: 'r' :: 'y' :: []

/-- The synthesized legacy meta record of Lobby.tsx lines 71-74:
version "0.0", characterName "Unknown". -/
def legacyMeta : Json :=
  Json.obj (.cons versionKey (.str ('0' :: '.' :: '0' :: []))
    (.cons characterNameKey
      (.str ('U' :: 'n' :: 'k' :: 'n' :: 'o' :: 'w' :: 'n' :: [])) .nil))

/-- The normalization of Lobby.tsx lines 67-75: a value with an engineState
key is used as the envelope unchanged; otherwise the whole value becomes the
engineState of a fresh envelope with the synthesized legacy meta. -/
def normalizeTape (rawData : Json) : Json :=
  if hasEngineState rawData then rawData
  else Json.obj (.cons metaKey legacyMeta (.cons engineStateKey rawData .nil))

/-- The envelope unwrapping of App.tsx lines 175-183: with an engineState key
the loaded state is that field, otherwise the raw value itself. -/
def appLoadedState (rawData : Json) : Json :=
  if hasEngineState rawData then (jLookup rawData engineStateKey).getD .null
  else rawData

/-- The history field App.tsx line 197 installs in the game state:
loadedState.history || [], i.e. the property when it is truthy and the empty
array when it is absent or falsy. -/
def appHistory (loadedState : Json) : Json :=
  match jLookup loadedState historyKey with
  | some h => if truthy h then h else Json.arr .nil
  | none => Json.arr .nil


/-! ## Concrete streams and values used by the examples -/

/-- The smallest well-formed carrier: the PNG signature followed by a bare
IEND chunk. -/
def tinyPng : List Nat := pngSignature ++ createChunk iendType []

/-- A signature-led stream whose single length field has the high bit set:
the browser code reads the four bytes 255 255 255 244 back as the signed
32-bit value -12. -/
def negLenStream : List Nat :=
  pngSignature ++ [255, 255, 255, 244, 65, 65, 65, 65]

/-- A complete tape card whose payload is the falsy JSON value null. -/
def falsyTape : List Nat :=
  pngSignature ++ tapeChunk Json.null ++ createChunk iendType []

def currentBeatKey : List Char :=
  'c' :: 'u' :: 'r' :: 'r' :: 'e' :: 'n' :: 't' :: 'B' :: 'e' :: 'a' :: 't' :: []

/-- The spec's legacy example: an object with history ["a"], a null
currentBeat and no engineState envelope. -/
def legacyExample : Json :=
  Json.obj (.cons historyKey (.arr (.cons (.str ('a' :: [])) .nil))
    (.cons currentBeatKey .null .nil))

/-! ## Byte-level lemmas -/

theorem byteAt_natCast (b : List Nat) (n : Nat) : byteAt b (n : Int) = b.get? n := by
  simp [byteAt]

theorem jsIndex_natCast (len n : Nat) : jsIndex len (n : Int) = min n len := by
  simp [jsIndex]

theorem jsSlice_natCast (b : List Nat) (s e : Nat) :
    jsSlice b (s : Int) (e : Int) = (b.take e).drop s := by
  unfold jsSlice
  rw [jsIndex_natCast, jsIndex_natCast]
  rcases le_or_lt e b.length with he | he
  · rcases le_or_lt s b.length with hs | hs
    · rw [Nat.min_eq_left he, Nat.min_eq_left hs]
    · rw [Nat.min_eq_left he, Nat.min_eq_right (le_of_lt hs),
        List.drop_eq_nil_of_le (by rw [List.length_take]; omega),
        List.drop_eq_nil_of_le (by rw [List.length_take]; omega)]
  · rcases le_or_lt s b.length with hs | hs
    · rw [Nat.min_eq_right (le_of_lt he), Nat.min_eq_left hs, List.take_length,
        List.take_of_length_le (le_of_lt he)]
    · rw [Nat.min_eq_right (le_of_lt he), Nat.min_eq_right (le_of_lt hs),
        List.take_length, List.take_of_length_le (le_of_lt he),
        List.drop_eq_nil_of_le le_rfl, List.drop_eq_nil_of_le (le_of_lt hs)]

theorem byteAt_concat (pre mid post : List Nat) (j : Nat) (h : j < mid.length) :
    byteAt (pre ++ mid ++ post) ((pre.length + j : Nat) : Int) = mid.get? j := by
  rw [byteAt_natCast, List.append_assoc, List.get?_append_right (by omega)]
  rw [Nat.add_sub_cancel_left, List.get?_append h]

theorem byte0_concat (pre mid post : List Nat) (j : Nat) (h : j < mid.length) :
    byte0 (pre ++ mid ++ post) ((pre.length + j : Nat) : Int) =
      (mid.get? j).getD 0 := by
  rw [byte0, byteAt_concat pre mid post j h]

theorem jsSlice_concat (pre mid post : List Nat) (s e : Nat) (he : e ≤ mid.length) :
    jsSlice (pre ++ mid ++ post) ((pre.length + s : Nat) : Int)
      ((pre.length + e : Nat) : Int) = (mid.take e).drop s := by
  rw [jsSlice_natCast, List.append_assoc, List.take_append, List.drop_append]
  rw [List.take_append_of_le_length he]

/-! ## Chunk-layout lemmas -/

theorem readLen_concat (pre rest : List Nat) (L : Nat) (hL : L < 2147483648) :
    readLen (pre ++ be32 L ++ rest) (pre.length : Int) = (L : Int) := by
  unfold readLen
  have c1 : ((pre.length : Int) + 1) = (((pre.length + 1 : Nat)) : Int) := by push_cast; ring
  have c2 : ((pre.length : Int) + 2) = (((pre.length + 2 : Nat)) : Int) := by push_cast; ring
  have c3 : ((pre.length : Int) + 3) = (((pre.length + 3 : Nat)) : Int) := by push_cast; ring
  have e0 := byte0_concat pre (be32 L) rest 0 (by simp [be32])
  rw [Nat.add_zero] at e0
  rw [c1, c2, c3, e0, byte0_concat pre (be32 L) rest 1 (by simp [be32]),
    byte0_concat pre (be32 L) rest 2 (by simp [be32]),
    byte0_concat pre (be32 L) rest 3 (by simp [be32])]
  simp only [be32, List.get?_cons_zero, List.get?_cons_succ, Option.getD_some]
  have hsum : L % 4294967296 / 16777216 % 256 % 256 * 16777216 +
      L % 4294967296 / 65536 % 256 % 256 * 65536 +
      L % 4294967296 / 256 % 256 % 256 * 256 + L % 4294967296 % 256 % 256 = L := by
    omega
  rw [hsum]
  unfold toInt32
  rw [if_pos (by omega), Nat.mod_eq_of_lt (by omega)]

theorem typeAt_concat (pre mid post : List Nat) (h : 8 ≤ mid.length) :
    typeAt (pre ++ mid ++ post) (pre.length : Int) = (mid.take 8).drop 4 := by
  unfold typeAt
  have c4 : ((pre.length : Int) + 4) = (((pre.length + 4 : Nat)) : Int) := by push_cast; ring
  have c8 : ((pre.length : Int) + 8) = (((pre.length + 8 : Nat)) : Int) := by push_cast; ring
  rw [c4, c8, jsSlice_concat pre mid post 4 8 h]

theorem char_range (c : Char) : c.toNat < 55296 ∨ (57343 < c.toNat ∧ c.toNat < 1114112) :=
  c.valid

theorem utf8DecodeGo_irrel : ∀ (fuel fuel' : Nat) (l : List Nat),
    l.length ≤ fuel → l.length ≤ fuel' → utf8DecodeGo fuel l = utf8DecodeGo fuel' l := by
  intro fuel
  induction fuel with
  | zero =>
    intro fuel' l hl _
    have hnil : l = [] := List.eq_nil_of_length_eq_zero (by omega)
    subst hnil
    cases fuel' <;> simp [utf8DecodeGo]
  | succ f ih =>
    intro fuel' l hl hl'
    cases l with
    | nil => cases fuel' <;> simp [utf8DecodeGo]
    | cons b bs =>
      cases fuel' with
      | zero => simp at hl'
      | succ f' =>
        simp only [utf8DecodeGo]
        repeat' split
        all_goals simp only [List.cons.injEq, true_and]
        all_goals first
          | rfl
          | (apply ih <;> simp_all [List.length_cons] <;> omega)

theorem utf8DecodeGo_enc (c : Char) (rest : List Nat) (fuel : Nat) (h : rest.length ≤ fuel) :
    utf8DecodeGo (fuel + (utf8EncodeChar c).length) (utf8EncodeChar c ++ rest)
      = c :: utf8DecodeGo fuel rest := by
  have hv := char_range c
  have hofn := Char.ofNat_toNat c
  set n := c.toNat with hn
  by_cases h1 : n < 128
  · simp only [utf8EncodeChar, ← hn, if_pos h1, List.length_cons, List.length_nil,
      List.cons_append, List.nil_append]
    simp only [utf8DecodeGo, if_pos h1]
    rw [hofn]
  · by_cases h2 : n < 2048
    · simp only [utf8EncodeChar, ← hn, if_neg h1, if_pos h2, List.length_cons,
        List.length_nil, List.cons_append, List.nil_append]
      have hb1 : ¬(192 + n / 64 < 128) := by omega
      have hb2 : (194 ≤ 192 + n / 64 && 192 + n / 64 ≤ 223) = true := by
        simp; omega
      have hc : isCont (128 + n % 64) = true := by simp [isCont]; omega
      simp only [utf8DecodeGo, if_neg hb1, if_pos hb2, if_pos hc]
      have hval : (192 + n / 64 - 192) * 64 + (128 + n % 64 - 128) = n := by omega
      rw [hval, hofn, utf8DecodeGo_irrel (fuel + 1) fuel rest (by omega) h]
    · by_cases h3 : n < 65536
      · simp only [utf8EncodeChar, ← hn, if_neg h1, if_neg h2, if_pos h3,
          List.length_cons, List.length_nil, List.cons_append, List.nil_append]
        have hb1 : ¬(224 + n / 4096 < 128) := by omega
        have hb2 : ¬((194 ≤ 224 + n / 4096 && 224 + n / 4096 ≤ 223) = true) := by
          simp; omega
        have hb3 : (224 ≤ 224 + n / 4096 && 224 + n / 4096 ≤ 239) = true := by
          simp; omega
        have hsec : (utf8Second (224 + n / 4096) (128 + n / 64 % 64) &&
            isCont (128 + n % 64)) = true := by
          simp only [utf8Second, isCont]
          split_ifs with ha hb <;> simp <;> omega
        simp only [utf8DecodeGo, if_neg hb1, if_neg hb2, if_pos hb3, if_pos hsec]
        have hval : (224 + n / 4096 - 224) * 4096 + (128 + n / 64 % 64 - 128) * 64 +
            (128 + n % 64 - 128) = n := by omega
        rw [hval, hofn, utf8DecodeGo_irrel (fuel + 2) fuel rest (by omega) h]
      · simp only [utf8EncodeChar, ← hn, if_neg h1, if_neg h2, if_neg h3,
          List.length_cons, List.length_nil, List.cons_append, List.nil_append]
        have hup : n < 1114112 := by omega
        have hb1 : ¬(240 + n / 262144 < 128) := by omega
        have hb2 : ¬((194 ≤ 240 + n / 262144 && 240 + n / 262144 ≤ 223) = true) := by
          simp; omega
        have hb3 : ¬((224 ≤ 240 + n / 262144 && 240 + n / 262144 ≤ 239) = true) := by
          simp; omega
        have hb4 : (240 ≤ 240 + n / 262144 && 240 + n / 262144 ≤ 244) = true := by
          simp; omega
        have hsec : (utf8SecondF (240 + n / 262144) (128 + n / 4096 % 64) &&
            isCont (128 + n / 64 % 64) && isCont (128 + n % 64)) = true := by
          simp only [utf8SecondF, isCont]
          split_ifs with ha hb <;> simp <;> omega
        simp only [utf8DecodeGo, if_neg hb1, if_neg hb2, if_neg hb3, if_pos hb4,
          if_pos hsec]
        have hval : (240 + n / 262144 - 240) * 262144 + (128 + n / 4096 % 64 - 128) * 4096 +
            (128 + n / 64 % 64 - 128) * 64 + (128 + n % 64 - 128) = n := by omega
        rw [hval, hofn, utf8DecodeGo_irrel (fuel + 3) fuel rest (by omega) h]

theorem utf8Decode_enc (c : Char) (rest : List Nat) :
    utf8Decode (utf8EncodeChar c ++ rest) = c :: utf8Decode rest := by
  unfold utf8Decode
  rw [List.length_append, Nat.add_comm (utf8EncodeChar c).length rest.length]
  exact utf8DecodeGo_enc c rest rest.length le_rfl

theorem utf8_roundtrip : ∀ s : List Char, utf8Decode (utf8Encode s) = s := by
  intro s
  induction s with
  | nil => rfl
  | cons c cs ih =>
    show utf8Decode (utf8EncodeChar c ++ utf8Encode cs) = c :: cs
    rw [utf8Decode_enc, ih]

/-! ## Character arithmetic lemmas -/

theorem char_eq_iff (c d : Char) : c = d ↔ c.toNat = d.toNat :=
  ⟨congrArg Char.toNat, fun h => by
    have hc := Char.ofNat_toNat c
    have hd := Char.ofNat_toNat d
    rw [← hc, ← hd, h]⟩

theorem toNat_ofNat_small (m : Nat) (h : m < 55296) : (Char.ofNat m).toNat = m := by
  unfold Char.ofNat
  split
  · rfl
  · next hv => exact absurd (Or.inl h) hv

theorem isDigit_iff (c : Char) : c.isDigit = true ↔ 48 ≤ c.toNat ∧ c.toNat ≤ 57 := by
  simp [Char.isDigit, Char.le_def, Char.toNat]
  exact Iff.rfl

theorem isWsChar_iff (c : Char) :
    isWsChar c = true ↔ c.toNat = 32 ∨ c.toNat = 9 ∨ c.toNat = 10 ∨ c.toNat = 13 := by
  rw [isWsChar]
  simp only [Bool.or_eq_true, decide_eq_true_eq]
  rw [char_eq_iff, char_eq_iff, char_eq_iff, char_eq_iff,
    show (' ' : Char).toNat = 32 from rfl, show ('\t' : Char).toNat = 9 from rfl,
    show ('\n' : Char).toNat = 10 from rfl, show (Char.ofNat 13).toNat = 13 from rfl]
  tauto

theorem digitChar_toNat (d : Nat) (h : d < 10) : (digitChar d).toNat = 48 + d :=
  toNat_ofNat_small _ (by omega)

theorem digitChar_isDigit (d : Nat) (h : d < 10) : (digitChar d).isDigit = true :=
  (isDigit_iff _).mpr (by rw [digitChar_toNat d h]; omega)

theorem digit_starter_facts (c : Char) (h : c.isDigit = true) :
    c ≠ 'n' ∧ c ≠ 't' ∧ c ≠ 'f' ∧ c ≠ '"' ∧ c ≠ '[' ∧ c ≠ '{' ∧ c ≠ '-' ∧
      isWsChar c = false := by
  have h' := (isDigit_iff c).mp h
  refine ⟨?_, ?_, ?_, ?_, ?_, ?_, ?_, ?_⟩
  · intro heq; rw [char_eq_iff, show ('n' : Char).toNat = 110 from rfl] at heq; omega
  · intro heq; rw [char_eq_iff, show ('t' : Char).toNat = 116 from rfl] at heq; omega
  · intro heq; rw [char_eq_iff, show ('f' : Char).toNat = 102 from rfl] at heq; omega
  · intro heq; rw [char_eq_iff, show ('"' : Char).toNat = 34 from rfl] at heq; omega
  · intro heq; rw [char_eq_iff, show ('[' : Char).toNat = 91 from rfl] at heq; omega
  · intro heq; rw [char_eq_iff, show ('{' : Char).toNat = 123 from rfl] at heq; omega
  · intro heq; rw [char_eq_iff, show ('-' : Char).toNat = 45 from rfl] at heq; omega
  · cases hb : isWsChar c with
    | false => rfl
    | true => exact absurd ((isWsChar_iff c).mp hb) (by omega)

theorem skipWs_cons (c : Char) (cs : List Char) (h : isWsChar c = false) :
    skipWs (c :: cs) = c :: cs := by
  rw [skipWs, h]
  simp

/-! ## Decimal digits -/

theorem natToCharsGo_eq (fuel : Nat) : ∀ (n : Nat) (acc : List Char), n ≤ fuel →
    natToCharsGo fuel n acc = ((Nat.digits 10 n).reverse.map digitChar) ++ acc := by
  induction fuel with
  | zero =>
    intro n acc h
    have : n = 0 := by omega
    subst this
    simp [natToCharsGo]
  | succ f ih =>
    intro n acc h
    by_cases h0 : n = 0
    · subst h0
      simp [natToCharsGo]
    · rw [natToCharsGo, if_neg h0, ih (n / 10) _ (by omega),
        Nat.digits_def' (by norm_num) (Nat.pos_of_ne_zero h0)]
      simp [List.reverse_cons, List.map_append]

theorem natToChars_eq (n : Nat) (h : n ≠ 0) :
    natToChars n = (Nat.digits 10 n).reverse.map digitChar := by
  rw [natToChars, if_neg h, natToCharsGo_eq n n [] le_rfl, List.append_nil]

theorem natToChars_ne_nil (n : Nat) : natToChars n ≠ [] := by
  by_cases h : n = 0
  · subst h; simp [natToChars]
  · rw [natToChars_eq n h]
    simp [Nat.digits_ne_nil_iff_ne_zero.mpr h]

theorem natToChars_all_digits (n : Nat) : ∀ c ∈ natToChars n, c.isDigit = true := by
  intro c hc
  by_cases h : n = 0
  · subst h
    simp [natToChars] at hc
    subst hc
    decide
  · rw [natToChars_eq n h] at hc
    simp only [List.mem_map, List.mem_reverse] at hc
    obtain ⟨d, hd, rfl⟩ := hc
    exact digitChar_isDigit d (Nat.digits_lt_base (by norm_num) hd)

theorem natToChars_head_ne_zero (n : Nat) (h : n ≠ 0) :
    (natToChars n).head? ≠ some '0' := by
  rw [natToChars_eq n h]
  have hne : Nat.digits 10 n ≠ [] := Nat.digits_ne_nil_iff_ne_zero.mpr h
  have hlast : (Nat.digits 10 n).getLast? =
      some ((Nat.digits 10 n).getLast hne) := List.getLast?_eq_getLast _ hne
  rw [List.head?_map, List.head?_reverse, hlast]
  have hd0 : (Nat.digits 10 n).getLast hne ≠ 0 := Nat.getLast_digit_ne_zero 10 h
  have hd10 : (Nat.digits 10 n).getLast hne < 10 :=
    Nat.digits_lt_base (by norm_num) (List.getLast_mem hne)
  simp only [Option.map_some', ne_eq, Option.some.injEq]
  rw [char_eq_iff, digitChar_toNat _ hd10, show ('0' : Char).toNat = 48 from rfl]
  omega

theorem charsToNat_digits_aux (L : List Nat) (hL : ∀ d ∈ L, d < 10) :
    ∀ acc : Nat, (L.reverse.map digitChar).foldl (fun a c => a * 10 + (c.toNat - 48)) acc
      = acc * 10 ^ L.length + Nat.ofDigits 10 L := by
  induction L with
  | nil => intro acc; simp
  | cons d L' ih =>
    intro acc
    have hd : d < 10 := hL d (by simp)
    have hL' : ∀ x ∈ L', x < 10 := fun x hx => hL x (by simp [hx])
    rw [List.reverse_cons, List.map_append, List.foldl_append, ih hL']
    simp only [List.map_cons, List.map_nil, List.foldl_cons, List.foldl_nil]
    rw [digitChar_toNat d hd, Nat.ofDigits_cons]
    have : 48 + d - 48 = d := by omega
    rw [this, List.length_cons]
    ring

theorem charsToNat_natToChars (n : Nat) : charsToNat (natToChars n) = n := by
  by_cases h : n = 0
  · subst h; decide
  · rw [natToChars_eq n h, charsToNat]
    rw [charsToNat_digits_aux (Nat.digits 10 n)
      (fun d hd => Nat.digits_lt_base (by norm_num) hd) 0]
    simp [Nat.ofDigits_digits]

/-! ## takeWhile / dropWhile over a clean split -/

theorem takeWhile_append_all (p : Char → Bool) :
    ∀ (l rest : List Char), (∀ c ∈ l, p c = true) →
      (∀ c, rest.head? = some c → p c = false) →
      (l ++ rest).takeWhile p = l ∧ (l ++ rest).dropWhile p = rest := by
  intro l
  induction l with
  | nil =>
    intro rest _ hrest
    cases rest with
    | nil => simp
    | cons c r =>
      have := hrest c rfl
      simp [List.takeWhile, List.dropWhile, this]
  | cons c l' ih =>
    intro rest hall hrest
    have hc : p c = true := hall c (by simp)
    have hl' : ∀ x ∈ l', p x = true := fun x hx => hall x (by simp [hx])
    obtain ⟨ht, hd⟩ := ih rest hl' hrest
    simp [List.takeWhile, List.dropWhile, hc, ht, hd]

/-- The characters that may legally follow a serialized number inside a larger
serialized document: nothing, or a character that neither extends the digit
string nor begins a fraction/exponent. -/
def numStop (rest : List Char) : Prop :=
  ∀ c, rest.head? = some c → c.isDigit = false ∧ c ≠ '.' ∧ c ≠ 'e' ∧ c ≠ 'E'

theorem parseNumber_natToChars (n : Nat) (rest : List Char) (hrest : numStop rest) :
    parseNumber (natToChars n ++ rest) = some (n, rest) := by
  obtain ⟨ht, hd⟩ := takeWhile_append_all Char.isDigit (natToChars n) rest
    (natToChars_all_digits n) (fun c h => (hrest c h).1)
  unfold parseNumber
  simp only [ht, hd]
  rw [if_neg (by simp [natToChars_ne_nil n])]
  have hlead : ¬((natToChars n).head? = some '0' ∧ (natToChars n).length ≠ 1) := by
    by_cases h : n = 0
    · subst h
      rintro ⟨-, hlen⟩
      exact hlen (by simp [natToChars])
    · rintro ⟨hh, -⟩
      exact natToChars_head_ne_zero n h hh
  rw [if_neg hlead]
  cases hr : rest with
  | nil => rw [charsToNat_natToChars]
  | cons c r =>
    have hc := hrest c (by rw [hr]; rfl)
    have hif : ¬(c = '.' ∨ c = 'e' ∨ c = 'E') := by
      rintro (h | h | h)
      · exact hc.2.1 h
      · exact hc.2.2.1 h
      · exact hc.2.2.2 h
    simp only [if_neg hif, charsToNat_natToChars]

/-! ## String literal round-trip -/

theorem hexVal?_hexChar (d : Nat) (h : d < 16) : hexVal? (hexChar d) = some d := by
  by_cases h10 : d < 10
  · have ht : (hexChar d).toNat = 48 + d := by
      rw [hexChar, if_pos h10]
      exact toNat_ofNat_small _ (by omega)
    rw [hexVal?, ht, if_pos (by omega)]
    simp
  · have ht : (hexChar d).toNat = 87 + d := by
      rw [hexChar, if_neg h10]
      exact toNat_ofNat_small _ (by omega)
    rw [hexVal?, ht, if_neg (by omega), if_pos (by omega)]
    simp [Nat.add_sub_cancel_left]

theorem parseStringBody_escape : ∀ (s rest : List Char),
    parseStringBody (escape s ++ '"' :: rest) = some (s, rest) := by
  intro s
  induction s with
  | nil => intro rest; simp [escape, parseStringBody.eq_def]
  | cons c cs ih =>
    intro rest
    show parseStringBody ((escChar c ++ escape cs) ++ '"' :: rest) = some (c :: cs, rest)
    rw [List.append_assoc]
    by_cases h1 : c = '"'
    · subst h1
      simp only [escChar, if_pos rfl, List.cons_append, List.nil_append]
      rw [parseStringBody.eq_def]
      simp [ih]
    · by_cases h2 : c = '\\'
      · subst h2
        simp only [escChar, if_neg (by decide : ¬('\\' : Char) = '"'), if_pos rfl,
          List.cons_append, List.nil_append]
        rw [parseStringBody.eq_def]
        simp [ih]
      · by_cases h3 : c.toNat = 8
        · rw [escChar, if_neg h1, if_neg h2, if_pos h3]
          have hc : Char.ofNat 8 = c := by rw [← h3, Char.ofNat_toNat]
          simp only [List.cons_append, List.nil_append]
          rw [parseStringBody.eq_def]
          simp [ih]
          exact hc
        · by_cases h4 : c.toNat = 12
          · rw [escChar, if_neg h1, if_neg h2, if_neg h3, if_pos h4]
            have hc : Char.ofNat 12 = c := by rw [← h4, Char.ofNat_toNat]
            simp only [List.cons_append, List.nil_append]
            rw [parseStringBody.eq_def]
            simp [ih]
            exact hc
          · by_cases h5 : c.toNat = 10
            · rw [escChar, if_neg h1, if_neg h2, if_neg h3, if_neg h4, if_pos h5]
              have hc : Char.ofNat 10 = c := by rw [← h5, Char.ofNat_toNat]
              simp only [List.cons_append, List.nil_append]
              rw [parseStringBody.eq_def]
              simp [ih]
              exact hc
            · by_cases h6 : c.toNat = 13
              · rw [escChar, if_neg h1, if_neg h2, if_neg h3, if_neg h4, if_neg h5,
                  if_pos h6]
                have hc : Char.ofNat 13 = c := by rw [← h6, Char.ofNat_toNat]
                simp only [List.cons_append, List.nil_append]
                rw [parseStringBody.eq_def]
                simp [ih]
                exact hc
              · by_cases h7 : c.toNat = 9
                · rw [escChar, if_neg h1, if_neg h2, if_neg h3, if_neg h4, if_neg h5,
                    if_neg h6, if_pos h7]
                  have hc : Char.ofNat 9 = c := by rw [← h7, Char.ofNat_toNat]
                  simp only [List.cons_append, List.nil_append]
                  rw [parseStringBody.eq_def]
                  simp [ih]
                  exact hc
                · by_cases h8 : c.toNat < 32
                  · rw [escChar, if_neg h1, if_neg h2, if_neg h3, if_neg h4, if_neg h5,
                      if_neg h6, if_neg h7, if_pos h8]
                    have hhi : hexVal? (hexChar (c.toNat / 16)) = some (c.toNat / 16) :=
                      hexVal?_hexChar _ (by omega)
                    have hlo : hexVal? (hexChar (c.toNat % 16)) = some (c.toNat % 16) :=
                      hexVal?_hexChar _ (by omega)
                    have hval : 0 * 4096 + 0 * 256 + c.toNat / 16 * 16 + c.toNat % 16
                        = c.toNat := by omega
                    have hc : Char.ofNat c.toNat = c := Char.ofNat_toNat c
                    have hsur : c.toNat < 55296 := by omega
                    have h0 : hexVal? '0' = some 0 := by decide
                    simp only [List.cons_append, List.nil_append]
                    rw [parseStringBody.eq_def]
                    simp only [h0, hhi, hlo]
                    simp [ih]
                    have hval2 : c.toNat / 16 * 16 + c.toNat % 16 = c.toNat := by omega
                    refine ⟨Or.inl (by omega), ?_⟩
                    rw [hval2]
                    exact hc
                  · rw [escChar, if_neg h1, if_neg h2, if_neg h3, if_neg h4, if_neg h5,
                      if_neg h6, if_neg h7, if_neg h8]
                    simp only [List.cons_append, List.nil_append]
                    rw [parseStringBody.eq_def]
                    simp [h1, h2, h8, ih]

/-! ## Parser fuel measures and serializer head facts -/

mutual

def needV : Json → Nat
  | .arr xs => 1 + needL xs
  | .obj m => 1 + needM m
  | _ => 1

def needL : JsonList → Nat
  | .nil => 1
  | .cons v .nil => 1 + needV v
  | .cons v (.cons w ws) => 1 + max (needV v) (needL (JsonList.cons w ws))

def needM : JsonObj → Nat
  | .nil => 1
  | .cons _ v .nil => 1 + needV v
  | .cons _ v (.cons k' w m') => 1 + max (needV v) (needM (JsonObj.cons k' w m'))

end

theorem needV_pos (v : Json) : 1 ≤ needV v := by
  cases v <;> simp [needV]

theorem stringify_head_facts (v : Json) :
    ∃ c cs, stringify v = c :: cs ∧ isWsChar c = false ∧ c ≠ ']' ∧ c ≠ '}' := by
  cases v with
  | null => exact ⟨'n', _, rfl, by decide, by decide, by decide⟩
  | bool b =>
    cases b
    · exact ⟨'f', _, rfl, by decide, by decide, by decide⟩
    · exact ⟨'t', _, rfl, by decide, by decide, by decide⟩
  | num k =>
    by_cases hk : k < 0
    · refine ⟨'-', natToChars (-k).toNat, ?_, by decide, by decide, by decide⟩
      show intToChars k = _
      rw [intToChars, if_pos hk]
    · cases hsplit : natToChars k.toNat with
      | nil => exact absurd hsplit (natToChars_ne_nil _)
      | cons c cs =>
        have hdig : c.isDigit = true :=
          natToChars_all_digits k.toNat c (by rw [hsplit]; simp)
        have hfacts := digit_starter_facts c hdig
        have hn := (isDigit_iff c).mp hdig
        refine ⟨c, cs, ?_, hfacts.2.2.2.2.2.2.2, ?_, ?_⟩
        · show intToChars k = _
          rw [intToChars, if_neg hk, hsplit]
        · intro heq; rw [char_eq_iff, show (']' : Char).toNat = 93 from rfl] at heq; omega
        · intro heq; rw [char_eq_iff, show ('}' : Char).toNat = 125 from rfl] at heq; omega
  | str s => exact ⟨'"', _, rfl, by decide, by decide, by decide⟩
  | arr xs =>
    cases xs
    · exact ⟨'[', _, rfl, by decide, by decide, by decide⟩
    · exact ⟨'[', _, rfl, by decide, by decide, by decide⟩
  | obj m =>
    cases m
    · exact ⟨'{', _, rfl, by decide, by decide, by decide⟩
    · exact ⟨'{', _, rfl, by decide, by decide, by decide⟩

theorem stringify_ne_nil (v : Json) : stringify v ≠ [] := by
  obtain ⟨c, cs, h, -⟩ := stringify_head_facts v
  rw [h]
  simp

theorem skipWs_stringify (v : Json) (rest : List Char) :
    skipWs (stringify v ++ rest) = stringify v ++ rest := by
  obtain ⟨c, cs, h, hws, -⟩ := stringify_head_facts v
  rw [h, List.cons_append, skipWs_cons _ _ hws]

theorem numStop_nil : numStop [] := by
  intro c h
  cases h

theorem numStop_elems (vs : JsonList) (rest : List Char) :
    numStop (stringifyElems vs ++ ']' :: rest) := by
  cases vs with
  | nil =>
    intro c h
    simp [stringifyElems] at h
    subst h
    refine ⟨by decide, by decide, by decide, by decide⟩
  | cons w ws =>
    intro c h
    simp [stringifyElems] at h
    subst h
    refine ⟨by decide, by decide, by decide, by decide⟩

theorem numStop_members (m : JsonObj) (rest : List Char) :
    numStop (stringifyMembers m ++ '}' :: rest) := by
  cases m with
  | nil =>
    intro c h
    simp [stringifyMembers] at h
    subst h
    refine ⟨by decide, by decide, by decide, by decide⟩
  | cons k w m' =>
    intro c h
    simp [stringifyMembers] at h
    subst h
    refine ⟨by decide, by decide, by decide, by decide⟩

/-! ## JSON round-trip -/

theorem parseElems_succ (f : Nat) (cs : List Char) :
    parseElems (f + 1) cs =
      match parseValue f cs with
      | some (v, r) =>
        match skipWs r with
        | ',' :: r2 =>
          match parseElems f r2 with
          | some (vs, r3) => some (.cons v vs, r3)
          | none => none
        | ']' :: r2 => some (.cons v .nil, r2)
        | _ => none
      | none => none := rfl

theorem parseMembers_succ (f : Nat) (cs : List Char) :
    parseMembers (f + 1) cs =
      match skipWs cs with
      | '"' :: r =>
        match parseStringBody r with
        | some (k, r2) =>
          match skipWs r2 with
          | ':' :: r3 =>
            match parseValue f r3 with
            | some (v, r4) =>
              match skipWs r4 with
              | ',' :: r5 =>
                match parseMembers f r5 with
                | some (m, r6) => some (.cons k v m, r6)
                | none => none
              | '}' :: r5 => some (.cons k v .nil, r5)
              | _ => none
            | none => none
          | _ => none
        | none => none
      | _ => none := rfl

theorem json_sizeOf_pos (v : Json) : 0 < sizeOf v := by
  cases v <;> simp_arith

theorem jsonList_sizeOf_pos (vs : JsonList) : 0 < sizeOf vs := by
  cases vs <;> simp_arith

theorem jsonObj_sizeOf_pos (m : JsonObj) : 0 < sizeOf m := by
  cases m <;> simp_arith

theorem parse_stringify_aux : ∀ n : Nat,
    (∀ v : Json, sizeOf v ≤ n → ∀ (fuel : Nat) (rest : List Char),
      needV v ≤ fuel → numStop rest →
      parseValue fuel (stringify v ++ rest) = some (v, rest)) ∧
    (∀ (v : Json) (vs : JsonList), sizeOf v + sizeOf vs ≤ n →
      ∀ (fuel : Nat) (rest : List Char), needL (.cons v vs) ≤ fuel → numStop rest →
      parseElems fuel (stringify v ++ (stringifyElems vs ++ ']' :: rest))
        = some (.cons v vs, rest)) ∧
    (∀ (k : List Char) (v : Json) (m : JsonObj), sizeOf v + sizeOf m ≤ n →
      ∀ (fuel : Nat) (rest : List Char), needM (.cons k v m) ≤ fuel → numStop rest →
      parseMembers fuel (quoteStr k ++ (':' :: (stringify v ++
        (stringifyMembers m ++ '}' :: rest)))) = some (.cons k v m, rest)) := by
  intro n
  induction n using Nat.strong_induction_on with
  | _ n ih =>
  refine ⟨?_, ?_, ?_⟩
  · intro v hsz fuel rest hf hrest
    obtain ⟨f, rfl⟩ : ∃ f, fuel = f + 1 := ⟨fuel - 1, by have := needV_pos v; omega⟩
    cases v with
    | null =>
      simp only [parseValue.eq_def]
      simp [stringify, skipWs, isWsChar]
    | bool b =>
      cases b <;> (simp only [parseValue.eq_def]; simp [stringify, skipWs, isWsChar])
    | num k =>
      by_cases hk : k < 0
      · have henc : stringify (Json.num k) = '-' :: natToChars (-k).toNat := by
          show intToChars k = _
          rw [intToChars, if_pos hk]
        rw [henc, List.cons_append]
        simp only [parseValue.eq_def]
        rw [skipWs_cons _ _ (by decide)]
        simp only [reduceIte]
        rw [parseNumber_natToChars _ rest hrest]
        have hcast : ((-k).toNat : Int) = -k := Int.toNat_of_nonneg (by omega)
        simp [hcast]
      · have henc : stringify (Json.num k) = natToChars k.toNat := by
          show intToChars k = _
          rw [intToChars, if_neg hk]
        cases hsplit : natToChars k.toNat with
        | nil => exact absurd hsplit (natToChars_ne_nil _)
        | cons c cs =>
          have hdig : c.isDigit = true :=
            natToChars_all_digits k.toNat c (by rw [hsplit]; simp)
          obtain ⟨hn, ht, hf2, hq, hlb, hlc, hm, hws⟩ := digit_starter_facts c hdig
          rw [henc, hsplit, List.cons_append]
          simp only [parseValue.eq_def]
          rw [skipWs_cons _ _ hws]
          simp only [if_neg hn, if_neg ht, if_neg hf2, if_neg hq, if_neg hlb,
            if_neg hlc, if_neg hm, if_pos hdig]
          rw [show c :: (cs ++ rest) = natToChars k.toNat ++ rest by rw [hsplit]; rfl]
          rw [parseNumber_natToChars _ rest hrest]
          have hcast : (k.toNat : Int) = k := Int.toNat_of_nonneg (by omega)
          simp [hcast]
    | str s =>
      show parseValue (f + 1) (quoteStr s ++ rest) = _
      rw [quoteStr, List.cons_append]
      simp only [parseValue.eq_def]
      rw [skipWs_cons _ _ (by decide)]
      simp only [reduceIte]
      rw [show (escape s ++ ['"']) ++ rest = escape s ++ '"' :: rest by simp]
      rw [parseStringBody_escape]
      simp
    | arr xs =>
      cases xs with
      | nil =>
        simp only [parseValue.eq_def]
        simp [stringify, skipWs, isWsChar]
      | cons v1 vs =>
        have hlt : sizeOf v1 + sizeOf vs < n := by
          simp at hsz
          omega
        have hsh : stringify (Json.arr (.cons v1 vs)) ++ rest
            = '[' :: (stringify v1 ++ (stringifyElems vs ++ ']' :: rest)) := by
          show ('[' :: (stringify v1 ++ stringifyElems vs) ++ [']']) ++ rest = _
          simp
        rw [hsh]
        simp only [parseValue.eq_def]
        rw [skipWs_cons _ _ (by decide)]
        obtain ⟨c, cs, hv, hws, hrb, hcb⟩ := stringify_head_facts v1
        have hskip : skipWs (stringify v1 ++ (stringifyElems vs ++ ']' :: rest))
            = stringify v1 ++ (stringifyElems vs ++ ']' :: rest) := skipWs_stringify v1 _
        have hne : ¬((stringify v1 ++ (stringifyElems vs ++ ']' :: rest)).head?
            = some ']') := by
          rw [hv]
          simp [hrb]
        simp only [reduceIte, hskip, if_neg hne]
        rw [(ih _ hlt).2.1 v1 vs le_rfl f rest (by simp [needV] at hf; omega) hrest]
        simp
    | obj m =>
      cases m with
      | nil =>
        simp only [parseValue.eq_def]
        simp [stringify, skipWs, isWsChar]
      | cons k1 v1 m1 =>
        have hlt : sizeOf v1 + sizeOf m1 < n := by
          simp at hsz
          omega
        have hsh : stringify (Json.obj (.cons k1 v1 m1)) ++ rest
            = '{' :: (quoteStr k1 ++ (':' :: (stringify v1 ++
              (stringifyMembers m1 ++ '}' :: rest)))) := by
          show ('{' :: (quoteStr k1 ++ ':' :: stringify v1 ++ stringifyMembers m1)
            ++ ['}']) ++ rest = _
          simp
        rw [hsh]
        simp only [parseValue.eq_def]
        rw [skipWs_cons _ _ (by decide)]
        have hskip : skipWs (quoteStr k1 ++ (':' :: (stringify v1 ++
            (stringifyMembers m1 ++ '}' :: rest))))
            = quoteStr k1 ++ (':' :: (stringify v1 ++
              (stringifyMembers m1 ++ '}' :: rest))) := by
          rw [quoteStr, List.cons_append, skipWs_cons _ _ (by decide)]
        have hne : ¬((quoteStr k1 ++ (':' :: (stringify v1 ++
            (stringifyMembers m1 ++ '}' :: rest)))).head? = some '}') := by
          rw [quoteStr]
          simp
        simp only [reduceIte, hskip, if_neg hne]
        rw [(ih _ hlt).2.2 k1 v1 m1 le_rfl f rest (by simp [needV] at hf; omega) hrest]
        simp
  · intro v vs hsz fuel rest hf hrest
    obtain ⟨f, rfl⟩ : ∃ f, fuel = f + 1 :=
      ⟨fuel - 1, by cases vs <;> simp [needL] at hf <;> omega⟩
    rw [parseElems_succ]
    have hvlt : sizeOf v < n := by
      have := jsonList_sizeOf_pos vs
      omega
    have hv := (ih _ hvlt).1 v le_rfl f (stringifyElems vs ++ ']' :: rest)
      (by cases vs <;> simp [needL] at hf <;> omega) (numStop_elems vs rest)
    rw [hv]
    cases vs with
    | nil =>
      simp [stringifyElems, skipWs, isWsChar]
    | cons w ws =>
      have hlt : sizeOf w + sizeOf ws < n := by
        have := json_sizeOf_pos v
        simp at hsz
        omega
      rw [show stringifyElems (.cons w ws) ++ ']' :: rest
        = ',' :: (stringify w ++ (stringifyElems ws ++ ']' :: rest)) by
          show (',' :: (stringify w ++ stringifyElems ws)) ++ ']' :: rest = _
          simp]
      simp only []
      rw [skipWs_cons _ _ (by decide)]
      simp only []
      rw [(ih _ hlt).2.1 w ws le_rfl f rest (by simp [needL] at hf ⊢; omega) hrest]
  · intro k v m hsz fuel rest hf hrest
    obtain ⟨f, rfl⟩ : ∃ f, fuel = f + 1 :=
      ⟨fuel - 1, by cases m <;> simp [needM] at hf <;> omega⟩
    rw [parseMembers_succ]
    rw [show quoteStr k ++ (':' :: (stringify v ++ (stringifyMembers m ++ '}' :: rest)))
      = '"' :: (escape k ++ '"' :: (':' :: (stringify v ++
        (stringifyMembers m ++ '}' :: rest)))) by rw [quoteStr]; simp]
    rw [skipWs_cons _ _ (by decide)]
    simp only []
    rw [parseStringBody_escape k]
    simp only []
    rw [skipWs_cons _ _ (by decide)]
    simp only []
    have hvlt : sizeOf v < n := by
      have := jsonObj_sizeOf_pos m
      omega
    have hv := (ih _ hvlt).1 v le_rfl f (stringifyMembers m ++ '}' :: rest)
      (by cases m <;> simp [needM] at hf <;> omega) (numStop_members m rest)
    rw [hv]
    cases m with
    | nil =>
      simp [stringifyMembers, skipWs, isWsChar]
    | cons k2 w m2 =>
      have hlt : sizeOf w + sizeOf m2 < n := by
        have := json_sizeOf_pos v
        simp at hsz
        omega
      rw [show stringifyMembers (.cons k2 w m2) ++ '}' :: rest
        = ',' :: (quoteStr k2 ++ (':' :: (stringify w ++
          (stringifyMembers m2 ++ '}' :: rest)))) by
          show (',' :: (quoteStr k2 ++ ':' :: stringify w ++ stringifyMembers m2))
            ++ '}' :: rest = _
          simp]
      simp only []
      rw [skipWs_cons _ _ (by decide)]
      simp only []
      rw [(ih _ hlt).2.2 k2 w m2 le_rfl f rest (by simp [needM] at hf ⊢; omega) hrest]

theorem parse_stringify (v : Json) (fuel : Nat) (rest : List Char)
    (hf : needV v ≤ fuel) (hrest : numStop rest) :
    parseValue fuel (stringify v ++ rest) = some (v, rest) :=
  (parse_stringify_aux (sizeOf v)).1 v le_rfl fuel rest hf hrest

theorem stringify_length_pos (v : Json) : 1 ≤ (stringify v).length := by
  obtain ⟨c, cs, h, -⟩ := stringify_head_facts v
  rw [h]
  simp

theorem needBound_aux : ∀ n : Nat,
    (∀ v : Json, sizeOf v ≤ n → needV v ≤ (stringify v).length) ∧
    (∀ (v : Json) (vs : JsonList), sizeOf v + sizeOf vs ≤ n →
      needL (.cons v vs) ≤ (stringify v ++ stringifyElems vs).length + 1) ∧
    (∀ (k : List Char) (v : Json) (m : JsonObj), sizeOf v + sizeOf m ≤ n →
      needM (.cons k v m) ≤ (stringify v ++ stringifyMembers m).length + 1) := by
  intro n
  induction n using Nat.strong_induction_on with
  | _ n ih =>
  refine ⟨?_, ?_, ?_⟩
  · intro v hsz
    cases v with
    | null => simp [needV, stringify]
    | bool b => cases b <;> simp [needV, stringify]
    | num k =>
      have := stringify_length_pos (Json.num k)
      simp [needV]
      omega
    | str s =>
      show needV (Json.str s) ≤ (quoteStr s).length
      simp [needV, quoteStr]
    | arr xs =>
      cases xs with
      | nil => simp [needV, needL, stringify]
      | cons v1 vs =>
        have hlt : sizeOf v1 + sizeOf vs < n := by
          simp at hsz
          omega
        have hb := (ih _ hlt).2.1 v1 vs le_rfl
        show 1 + needL (.cons v1 vs) ≤
          ('[' :: (stringify v1 ++ stringifyElems vs) ++ [']']).length
        simp at hb ⊢
        omega
    | obj m =>
      cases m with
      | nil => simp [needV, needM, stringify]
      | cons k1 v1 m1 =>
        have hlt : sizeOf v1 + sizeOf m1 < n := by
          simp at hsz
          omega
        have hb := (ih _ hlt).2.2 k1 v1 m1 le_rfl
        have hq : 2 ≤ (quoteStr k1).length := by simp [quoteStr]
        show 1 + needM (.cons k1 v1 m1) ≤
          ('{' :: (quoteStr k1 ++ ':' :: stringify v1 ++ stringifyMembers m1)
            ++ ['}']).length
        simp at hb ⊢
        omega
  · intro v vs hsz
    cases vs with
    | nil =>
      have hvlt : sizeOf v < n := by
        have := jsonList_sizeOf_pos JsonList.nil
        omega
      have hb := (ih _ hvlt).1 v le_rfl
      simp [needL, stringifyElems]
      omega
    | cons w ws =>
      have hvlt : sizeOf v < n := by
        have := jsonList_sizeOf_pos (JsonList.cons w ws)
        omega
      have hlt : sizeOf w + sizeOf ws < n := by
        have := json_sizeOf_pos v
        simp at hsz
        omega
      have hb1 := (ih _ hvlt).1 v le_rfl
      have hb2 := (ih _ hlt).2.1 w ws le_rfl
      rw [List.length_append] at hb2
      show 1 + max (needV v) (needL (.cons w ws)) ≤
        (stringify v ++ stringifyElems (.cons w ws)).length + 1
      rw [List.length_append]
      have hlen : (stringifyElems (JsonList.cons w ws)).length
          = 1 + (stringify w).length + (stringifyElems ws).length := by
        show (',' :: (stringify w ++ stringifyElems ws)).length = _
        simp
        omega
      omega
  · intro k v m hsz
    cases m with
    | nil =>
      have hvlt : sizeOf v < n := by
        have := jsonObj_sizeOf_pos JsonObj.nil
        omega
      have hb := (ih _ hvlt).1 v le_rfl
      simp [needM, stringifyMembers]
      omega
    | cons k2 w m2 =>
      have hvlt : sizeOf v < n := by
        have := jsonObj_sizeOf_pos (JsonObj.cons k2 w m2)
        omega
      have hlt : sizeOf w + sizeOf m2 < n := by
        have := json_sizeOf_pos v
        simp at hsz
        omega
      have hb1 := (ih _ hvlt).1 v le_rfl
      have hb2 := (ih _ hlt).2.2 k2 w m2 le_rfl
      have hq : 2 ≤ (quoteStr k2).length := by simp [quoteStr]
      rw [List.length_append] at hb2
      show 1 + max (needV v) (needM (.cons k2 w m2)) ≤
        (stringify v ++ stringifyMembers (.cons k2 w m2)).length + 1
      rw [List.length_append]
      have hlen : (stringifyMembers (JsonObj.cons k2 w m2)).length
          = 1 + (quoteStr k2).length + 1 + (stringify w).length
            + (stringifyMembers m2).length := by
        show (',' :: (quoteStr k2 ++ ':' :: stringify w ++ stringifyMembers m2)).length
          = _
        simp
        omega
      omega

theorem needV_le_len (v : Json) : needV v ≤ (stringify v).length :=
  (needBound_aux (sizeOf v)).1 v le_rfl

/-- JSON.parse inverts JSON.stringify on the modelled fragment. -/
theorem jsonParse_stringify (v : Json) : jsonParse (stringify v) = some v := by
  unfold jsonParse
  have h := parse_stringify v ((stringify v).length + 1) []
    (by have := needV_le_len v; omega) numStop_nil
  rw [List.append_nil] at h
  rw [h]
  simp [skipWs]

/-! ## CRC lemmas -/

theorem crcTable_getD (i : Nat) (h : i < 256) : crcTable.getD i 0 = crcTableEntry i := by
  rw [crcTable, List.getD]
  simp [List.get?_map, List.get?_range, List.getElem?_range, h]

theorem crcSpecGo_eq (buf : List Nat) : ∀ acc : Nat,
    crcSpecGo buf acc =
      (buf.foldl (fun c b => crcTable.getD ((c ^^^ b) % 256) 0 ^^^ c / 256) acc)
        ^^^ 0xffffffff := by
  induction buf with
  | nil => intro acc; rfl
  | cons b bs ih =>
    intro acc
    rw [crcSpecGo, List.foldl_cons, ih, crcTable_getD _ (by omega)]

theorem crc32_eq_crcSpec (buf : List Nat) : crc32 buf = crcSpec buf := by
  rw [crc32, crcSpec, crcSpecGo_eq]

theorem crcStep_lt (c : Nat) (h : c < 4294967296) : crcStep c < 4294967296 := by
  rw [crcStep]
  split
  · exact Nat.xor_lt_two_pow (n := 32) (by norm_num) (by omega)
  · omega

theorem crcTableEntry_lt (n : Nat) (h : n < 4294967296) :
    crcTableEntry n < 4294967296 := by
  rw [crcTableEntry]
  exact crcStep_lt _ (crcStep_lt _ (crcStep_lt _ (crcStep_lt _ (crcStep_lt _
    (crcStep_lt _ (crcStep_lt _ (crcStep_lt _ h)))))))

theorem crc32_lt (buf : List Nat) : crc32 buf < 4294967296 := by
  rw [crc32]
  have hfold : ∀ (l : List Nat) (acc : Nat), acc < 4294967296 →
      l.foldl (fun c b => crcTable.getD ((c ^^^ b) % 256) 0 ^^^ c / 256) acc
        < 4294967296 := by
    intro l
    induction l with
    | nil => intro acc h; exact h
    | cons x xs ih =>
      intro acc h
      rw [List.foldl_cons]
      refine ih _ (Nat.xor_lt_two_pow (n := 32) ?_ (by omega))
      rw [crcTable_getD _ (by omega)]
      exact crcTableEntry_lt _ (by omega)
  exact Nat.xor_lt_two_pow (n := 32) (hfold buf 0xffffffff (by norm_num))
    (by norm_num)

/-! ## Chunk traversal -/

theorem typeAt_natCast (b : List Nat) (t : Nat) :
    typeAt b (t : Int) = (b.take (t + 8)).drop (t + 4) := by
  unfold typeAt
  rw [show ((t : Int) + 4) = (((t + 4 : Nat)) : Int) by push_cast; ring,
    show ((t : Int) + 8) = (((t + 8 : Nat)) : Int) by push_cast; ring,
    jsSlice_natCast]

theorem typeAt_iend_bound (b : List Nat) (t : Nat)
    (h : typeAt b (t : Int) = iendType) : t + 8 ≤ b.length := by
  have hlen := congrArg List.length h
  rw [typeAt_natCast] at hlen
  simp [List.length_drop, List.length_take, iendType] at hlen
  omega

/-- The nonnegative-length chunk path of the source's traversal: from pos the
loop reaches an IEND chunk at offset t, every visited length field being
nonnegative as a signed 32-bit integer.  This is the calling contract of a
well-formed PNG (all chunk lengths are below 2^31). -/
inductive IendAt (b : List Nat) : Nat → Nat → Prop where
  | here : ∀ pos : Nat, (pos : Int) < b.length → typeAt b (pos : Int) = iendType →
      IendAt b pos pos
  | step : ∀ pos L t : Nat, (pos : Int) < b.length →
      typeAt b (pos : Int) ≠ iendType → readLen b (pos : Int) = (L : Int) →
      IendAt b (pos + 12 + L) t → IendAt b pos t

theorem IendAt.le {b : List Nat} {pos t : Nat} (h : IendAt b pos t) : pos ≤ t := by
  induction h with
  | here => exact le_rfl
  | step pos L t _ _ _ _ ih => omega

theorem IendAt.bound {b : List Nat} {pos t : Nat} (h : IendAt b pos t) :
    t + 8 ≤ b.length := by
  induction h with
  | here pos hlt hty => exact typeAt_iend_bound b pos hty
  | step _ _ _ _ _ _ _ ih => exact ih

theorem IendAt.findIend {b : List Nat} {pos t : Nat} (h : IendAt b pos t) :
    ∃ fuel, findIendAux b fuel (pos : Int) = some (some (t : Int)) := by
  induction h with
  | here pos hlt hty =>
    exact ⟨1, by simp [findIendAux, hlt, hty]⟩
  | step pos L t hlt hty hL _ ih =>
    obtain ⟨f, hf⟩ := ih
    refine ⟨f + 1, ?_⟩
    rw [findIendAux, if_pos hlt, if_neg hty, hL,
      show ((pos : Int) + 8 + (L : Int) + 4) = (((pos + 12 + L : Nat)) : Int) by
        push_cast; ring]
    exact hf

/-- Well-formed traversal from pos: the loop either exhausts the buffer,
stops at an IEND chunk, or advances over a chunk whose length field is
nonnegative. -/
inductive ChunksWF (b : List Nat) : Nat → Prop where
  | exhaust : ∀ pos : Nat, (b.length : Int) ≤ (pos : Int) → ChunksWF b pos
  | iend : ∀ pos : Nat, (pos : Int) < b.length → typeAt b (pos : Int) = iendType →
      ChunksWF b pos
  | step : ∀ pos L : Nat, (pos : Int) < b.length →
      typeAt b (pos : Int) ≠ iendType → readLen b (pos : Int) = (L : Int) →
      ChunksWF b (pos + 12 + L) → ChunksWF b pos

theorem ChunksWF.findIend_terminates {b : List Nat} {pos : Nat}
    (h : ChunksWF b pos) : ∃ fuel r, findIendAux b fuel (pos : Int) = some r := by
  induction h with
  | exhaust pos hge =>
    exact ⟨1, none, by rw [findIendAux, if_neg (by omega)]⟩
  | iend pos hlt hty =>
    exact ⟨1, some (pos : Int), by simp [findIendAux, hlt, hty]⟩
  | step pos L hlt hty hL _ ih =>
    obtain ⟨f, r, hf⟩ := ih
    refine ⟨f + 1, r, ?_⟩
    rw [findIendAux, if_pos hlt, if_neg hty, hL,
      show ((pos : Int) + 8 + (L : Int) + 4) = (((pos + 12 + L : Nat)) : Int) by
        push_cast; ring]
    exact hf

theorem ChunksWF.scan_terminates {b : List Nat} {pos : Nat}
    (h : ChunksWF b pos) : ∀ acc, ∃ fuel r, scanAux b fuel (pos : Int) acc = some r := by
  induction h with
  | exhaust pos hge =>
    intro acc
    exact ⟨1, (acc, false), by rw [scanAux, if_neg (by omega)]⟩
  | iend pos hlt hty =>
    intro acc
    refine ⟨1, ((if typeAt b (pos : Int) = tEXtType then
      scanChunkData b (pos : Int) (readLen b (pos : Int)) acc else acc), true), ?_⟩
    rw [scanAux, if_pos hlt, if_pos hty]
  | step pos L hlt hty hL _ ih =>
    intro acc
    obtain ⟨f, r, hf⟩ := ih
      (if typeAt b (pos : Int) = tEXtType then
        scanChunkData b (pos : Int) (readLen b (pos : Int)) acc else acc)
    refine ⟨f + 1, r, ?_⟩
    rw [scanAux, if_pos hlt, if_neg hty]
    rw [show ((pos : Int) + 8 + readLen b (pos : Int) + 4)
        = (((pos + 12 + L : Nat)) : Int) by rw [hL]; push_cast; ring]
    exact hf



/-! ## Prefix agreement: reads below a common prefix are equal -/

theorem byteAt_agree (l l' : List Nat) (t i : Nat) (h : l.take t = l'.take t)
    (hi : i < t) : byteAt l (i : Int) = byteAt l' (i : Int) := by
  rw [byteAt_natCast, byteAt_natCast, ← List.get?_take hi, h, List.get?_take hi]

theorem readLen_agree (l l' : List Nat) (t pos : Nat) (h : l.take t = l'.take t)
    (hp : pos + 4 ≤ t) : readLen l (pos : Int) = readLen l' (pos : Int) := by
  unfold readLen byte0
  rw [show ((pos : Int) + 1) = (((pos + 1 : Nat)) : Int) by push_cast; ring,
    show ((pos : Int) + 2) = (((pos + 2 : Nat)) : Int) by push_cast; ring,
    show ((pos : Int) + 3) = (((pos + 3 : Nat)) : Int) by push_cast; ring,
    byteAt_agree l l' t pos h (by omega),
    byteAt_agree l l' t (pos + 1) h (by omega),
    byteAt_agree l l' t (pos + 2) h (by omega),
    byteAt_agree l l' t (pos + 3) h (by omega)]

theorem slice_agree (l l' : List Nat) (t s e : Nat) (h : l.take t = l'.take t)
    (he : e ≤ t) : jsSlice l (s : Int) (e : Int) = jsSlice l' (s : Int) (e : Int) := by
  rw [jsSlice_natCast, jsSlice_natCast,
    show l.take e = l'.take e by
      rw [← Nat.min_eq_left he, ← List.take_take, h, List.take_take,
        Nat.min_eq_left he]]

theorem typeAt_agree (l l' : List Nat) (t pos : Nat) (h : l.take t = l'.take t)
    (hp : pos + 8 ≤ t) : typeAt l (pos : Int) = typeAt l' (pos : Int) := by
  unfold typeAt
  rw [show ((pos : Int) + 4) = (((pos + 4 : Nat)) : Int) by push_cast; ring,
    show ((pos : Int) + 8) = (((pos + 8 : Nat)) : Int) by push_cast; ring,
    slice_agree l l' t (pos + 4) (pos + 8) h (by omega)]

/-! ## Single steps of the readTapeData scan -/

theorem scanAux_at_iend (b : List Nat) (pos : Nat) (acc : Option Json) (k : Nat)
    (hlt : ((pos : Int)) < b.length) (hty : typeAt b (pos : Int) = iendType) :
    scanAux b (k + 1) (pos : Int) acc = some
      ((if typeAt b (pos : Int) = tEXtType then
        scanChunkData b (pos : Int) (readLen b (pos : Int)) acc else acc), true) := by
  rw [scanAux, if_pos hlt, if_pos hty]

theorem scanAux_step (b : List Nat) (pos L : Nat) (acc : Option Json) (k : Nat)
    (hlt : ((pos : Int)) < b.length) (hty : typeAt b (pos : Int) ≠ iendType)
    (hL : readLen b (pos : Int) = (L : Int)) :
    scanAux b (k + 1) (pos : Int) acc
      = scanAux b k (((pos + 12 + L : Nat)) : Int)
        (if typeAt b (pos : Int) = tEXtType then
          scanChunkData b (pos : Int) (readLen b (pos : Int)) acc else acc) := by
  rw [scanAux, if_pos hlt, if_neg hty,
    show ((pos : Int) + 8 + readLen b (pos : Int) + 4)
      = (((pos + 12 + L : Nat)) : Int) by rw [hL]; push_cast; ring]

theorem scan_prefix_reaches {b : List Nat} {pos t : Nat}
    (hw : IendAt b pos t) :
    ∀ out : List Nat, out.take t = b.take t → t ≤ out.length →
    ∀ acc, ∃ n acc', ∀ k, scanAux out (n + k) (pos : Int) acc
      = scanAux out k (t : Int) acc' := by
  induction hw with
  | here pos _ _ =>
    intro out hpre hlen acc
    exact ⟨0, acc, fun k => by rw [Nat.zero_add]⟩
  | step pos L t hlt hty hL hrec ih =>
    intro out hpre hlen acc
    have hpt : pos + 12 + L ≤ t := hrec.le
    have hty' : typeAt out (pos : Int) ≠ iendType := by
      rw [typeAt_agree out b t pos hpre (by omega)]
      exact hty
    have hL' : readLen out (pos : Int) = (L : Int) := by
      rw [readLen_agree out b t pos hpre (by omega)]
      exact hL
    have hlt' : ((pos : Int)) < out.length := by
      have : pos < t := by omega
      omega
    obtain ⟨n, acc', hn⟩ := ih out hpre hlen (if typeAt out (pos : Int) = tEXtType then
      scanChunkData out (pos : Int) (readLen out (pos : Int)) acc else acc)
    refine ⟨n + 1, acc', fun k => ?_⟩
    rw [show n + 1 + k = (n + k) + 1 by ring,
      scanAux_step out pos L acc (n + k) hlt' hty' hL', hn k]

/-- Pointwise-equal predicates find the same element. -/
theorem find?_congr (p q : Nat → Bool) :
    ∀ l : List Nat, (∀ a, a ∈ l → p a = q a) → l.find? p = l.find? q := by
  intro l
  induction l with
  | nil => intro _; rfl
  | cons x xs ih =>
    intro h
    rw [List.find?_cons, List.find?_cons, h x (List.mem_cons_self x xs),
      ih (fun a ha => h a (List.mem_cons_of_mem x ha))]

/-- scanChunkData on a buffer carrying the chunk data `keyword NUL value` at
offset p + 8 extracts and parses the value, keeping the accumulator when the
parse fails. -/
theorem scanChunkData_concat (pre1 val post1 : List Nat) (p : Nat) (acc : Option Json)
    (h8 : pre1.length = p + 8) :
    scanChunkData (pre1 ++ (keywordBytes ++ [0] ++ val) ++ post1)
      (p : Int) ((15 + val.length : Nat) : Int) acc
      = match jsonParse (utf8Decode val) with | some v => some v | none => acc := by
  have hD : (keywordBytes ++ [0] ++ val).length = 15 + val.length := by
    simp [keywordBytes]
    omega
  have hds : ((p : Int)) + 8 = ((pre1.length : Nat) : Int) := by
    rw [h8]; push_cast; ring
  unfold scanChunkData
  have hnull : findNull (pre1 ++ (keywordBytes ++ [0] ++ val) ++ post1)
      ((p : Int) + 8) ((15 + val.length : Nat) : Int) = some 14 := by
    unfold findNull
    rw [Int.toNat_natCast, hds]
    rw [find?_congr _ (fun k => (keywordBytes ++ [0] ++ val).get? k == some 0)]
    . rw [List.range_add, List.find?_append]
      rfl
    . intro a ha
      rw [List.mem_range] at ha
      rw [show ((pre1.length : Nat) : Int) + (a : Int) = (((pre1.length + a : Nat)) : Int)
          by push_cast; ring,
        byteAt_concat pre1 _ post1 a (by rw [hD]; omega)]
  rw [hds] at hnull ⊢
  simp only [hnull]
  have hkw : jsSlice (pre1 ++ (keywordBytes ++ [0] ++ val) ++ post1)
      ((pre1.length : Nat) : Int) (((pre1.length : Nat) : Int) + ((14 : Nat) : Int))
      = keywordBytes := by
    rw [show (((pre1.length : Nat)) : Int) = (((pre1.length + 0 : Nat)) : Int) by push_cast; ring]
    rw [show (((pre1.length + 0 : Nat)) : Int) + ((14 : Nat) : Int)
        = (((pre1.length + 14 : Nat)) : Int) by push_cast; ring]
    rw [jsSlice_concat pre1 _ post1 0 14 (by omega)]
    rfl
  rw [hkw, if_pos rfl]
  have hval : jsSlice (pre1 ++ (keywordBytes ++ [0] ++ val) ++ post1)
      (((pre1.length : Nat) : Int) + ((14 : Nat) : Int) + 1)
      (((pre1.length : Nat) : Int) + ((15 + val.length : Nat) : Int)) = val := by
    rw [show (((pre1.length : Nat)) : Int) + ((14 : Nat) : Int) + 1
        = (((pre1.length + 15 : Nat)) : Int) by push_cast; ring]
    rw [show (((pre1.length : Nat)) : Int) + ((15 + val.length : Nat) : Int)
        = (((pre1.length + (15 + val.length) : Nat)) : Int) by push_cast; ring]
    rw [jsSlice_concat pre1 _ post1 15 (15 + val.length) (by rw [hD])]
    rw [show (15 + val.length) = (keywordBytes ++ [0] ++ val).length by rw [hD]]
    rw [List.take_length]
    rfl
  rw [hval]



/-- One scan step over a tEXt chunk carrying `keyword NUL val`: the loop
advances past the chunk and replaces the accumulator by the parsed value
when the value parses, keeping it otherwise. -/
theorem scanAux_text_chunk (pre val post : List Nat) (acc : Option Json) (k : Nat)
    (hval : 15 + val.length < 2147483648) :
    scanAux (pre ++ createChunk tEXtType (keywordBytes ++ [0] ++ val) ++ post) (k + 1)
        (pre.length : Int) acc
      = scanAux (pre ++ createChunk tEXtType (keywordBytes ++ [0] ++ val) ++ post) k
        ((pre.length + 12 + (15 + val.length) : Nat) : Int)
        (match jsonParse (utf8Decode val) with | some v => some v | none => acc) := by
  have hD : (keywordBytes ++ [0] ++ val).length = 15 + val.length := by
    simp [keywordBytes]
    omega
  have hblen : (pre ++ createChunk tEXtType (keywordBytes ++ [0] ++ val) ++ post).length
      = pre.length + 12 + (15 + val.length) + post.length := by
    simp [createChunk, be32, tEXtType, keywordBytes]
    omega
  have hlt : ((pre.length : Nat) : Int)
      < (pre ++ createChunk tEXtType (keywordBytes ++ [0] ++ val) ++ post).length := by
    rw [hblen]
    push_cast
    omega
  have hre2 : pre ++ createChunk tEXtType (keywordBytes ++ [0] ++ val) ++ post
      = pre ++ be32 (keywordBytes ++ [0] ++ val).length
        ++ ((tEXtType ++ (keywordBytes ++ [0] ++ val))
          ++ (be32 (crc32 (tEXtType ++ (keywordBytes ++ [0] ++ val))) ++ post)) := by
    simp [createChunk, List.append_assoc]
  have hreadLen : readLen (pre ++ createChunk tEXtType (keywordBytes ++ [0] ++ val) ++ post)
      (pre.length : Int) = ((15 + val.length : Nat) : Int) := by
    rw [hre2, readLen_concat pre _ _ (by rw [hD]; exact hval), hD]
  have hty : typeAt (pre ++ createChunk tEXtType (keywordBytes ++ [0] ++ val) ++ post)
      (pre.length : Int) = tEXtType := by
    rw [typeAt_concat pre _ post (by simp [createChunk, be32, tEXtType])]
    rfl
  have hre : pre ++ createChunk tEXtType (keywordBytes ++ [0] ++ val) ++ post
      = (pre ++ be32 (keywordBytes ++ [0] ++ val).length ++ tEXtType)
        ++ (keywordBytes ++ [0] ++ val)
        ++ (be32 (crc32 (tEXtType ++ (keywordBytes ++ [0] ++ val))) ++ post) := by
    simp [createChunk, List.append_assoc]
  have hscd : scanChunkData (pre ++ createChunk tEXtType (keywordBytes ++ [0] ++ val) ++ post)
      (pre.length : Int) ((15 + val.length : Nat) : Int) acc
      = match jsonParse (utf8Decode val) with | some v => some v | none => acc := by
    rw [hre]
    exact scanChunkData_concat _ val _ pre.length acc (by simp [be32, tEXtType])
  rw [scanAux_step _ pre.length (15 + val.length) acc k hlt
      (by rw [hty]; decide) hreadLen,
    hty, if_pos rfl, hreadLen, hscd]



/-! ## Divergence of the traversal on a negative length field -/

theorem scanAux_negLen_stuck (fuel : Nat) :
    ∀ acc, scanAux negLenStream fuel 8 acc = none := by
  induction fuel with
  | zero => intro acc; rfl
  | succ f ih =>
    intro acc
    exact (show scanAux negLenStream (f + 1) 8 acc
        = scanAux negLenStream f 8 acc from rfl).trans (ih acc)

theorem findIendAux_negLen_stuck (fuel : Nat) :
    findIendAux negLenStream fuel 8 = none := by
  induction fuel with
  | zero => rfl
  | succ f ih =>
    exact (show findIendAux negLenStream (f + 1) 8
        = findIendAux negLenStream f 8 from rfl).trans ih

/-! ## The claims -/

/-- C7: crc32 of the empty sequence is 0; crc32 of the ASCII bytes of
"123456789" is the published CRC-32/PNG test vector 0xCBF43926; and on every
byte sequence crc32 agrees with the specification-level CRC (table built
from the reflected polynomial 0xEDB88320, accumulator seeded with
0xFFFFFFFF, per-byte update table[(acc XOR byte) AND 0xFF] XOR (acc >> 8),
final XOR 0xFFFFFFFF) and returns an unsigned 32-bit value. -/
theorem crc32_png_correct :
    crc32 [] = 0 ∧
    crc32 [49, 50, 51, 52, 53, 54, 55, 56, 57] = 0xCBF43926 ∧
    (∀ buf, crc32 buf = crcSpec buf) ∧ ∀ buf, crc32 buf < 4294967296 :=
  ⟨by decide, by decide, crc32_eq_crcSpec, crc32_lt⟩

/-- C8: a decoded object without the engineState key is wrapped: the
envelope's engineState field is exactly the input value and the synthesized
meta is the fixed legacy record (version "0.0", characterName "Unknown"). -/
theorem normalize_legacy_envelope (v : Json) (h : hasEngineState v = false) :
    normalizeTape v
      = Json.obj (.cons metaKey legacyMeta (.cons engineStateKey v .nil)) ∧
    jLookup (normalizeTape v) engineStateKey = some v ∧
    jLookup (normalizeTape v) metaKey = some legacyMeta := by
  have h1 : normalizeTape v
      = Json.obj (.cons metaKey legacyMeta (.cons engineStateKey v .nil)) := by
    unfold normalizeTape
    rw [if_neg (by simp [h])]
  refine ⟨h1, ?_, ?_⟩
  · rw [h1]
    rfl
  · rw [h1]
    rfl

/-- C8 witness: the spec's legacy example object is wrapped with the legacy
meta and kept whole as the engineState. -/
theorem normalize_legacy_envelope_witness :
    normalizeTape legacyExample
      = Json.obj (.cons metaKey legacyMeta (.cons engineStateKey legacyExample .nil)) ∧
    jLookup (normalizeTape legacyExample) engineStateKey = some legacyExample ∧
    jLookup (normalizeTape legacyExample) metaKey = some legacyMeta :=
  normalize_legacy_envelope legacyExample (by decide)

/-- C9: corrected. The normalizer of Lobby.tsx never substitutes a history
field: when history is absent from the source value it stays absent from the
envelope's engineState. The empty-sequence substitution happens later and
elsewhere, in App.tsx's onDrop, through loadedState.history || []. -/
theorem history_substituted_in_app (v : Json)
    (habs : jLookup v historyKey = none) :
    appHistory v = Json.arr .nil ∧
    (hasEngineState v = false →
      jLookup ((jLookup (normalizeTape v) engineStateKey).getD Json.null)
        historyKey = none) := by
  constructor
  · unfold appHistory
    rw [habs]
  · intro h
    unfold normalizeTape
    rw [if_neg (by simp [h])]
    exact habs

/-- C9 witness: the empty object has no history; the App-side game state
gets the empty array while the normalized envelope's engineState still has
no history key. -/
theorem history_substituted_in_app_witness :
    appHistory (Json.obj .nil) = Json.arr .nil ∧
    (hasEngineState (Json.obj .nil) = false →
      jLookup ((jLookup (normalizeTape (Json.obj .nil)) engineStateKey).getD Json.null)
        historyKey = none) :=
  history_substituted_in_app (Json.obj .nil) (by decide)

/-- C9 counterexample: normalization does not guarantee engineState.history
is a sequence: for the empty object the normalized envelope's engineState
has no history key at all, and even the App-side substitution keeps a truthy
non-sequence history (the number 5) unchanged. -/
theorem history_substituted_in_app_cex :
    jLookup ((jLookup (normalizeTape (Json.obj JsonObj.nil)) engineStateKey).getD Json.null)
      historyKey = none ∧
    appHistory (Json.obj (.cons historyKey (Json.num 5) .nil)) = Json.num 5 := by
  decide

/-- C5: corrected. Both traversal loops terminate on streams whose chunk
walk from offset 8 is well-formed: every visited length field reads back
nonnegative until the buffer is exhausted or an IEND chunk is reached. (The
unconditional claim fails: a length field with the high bit set reads back
negative and the loops never terminate; see the counterexample.) -/
theorem traversal_terminates_of_wf (b : List Nat) (hwf : ChunksWF b 8) :
    (∃ fuel r, findIendAux b fuel ((8 : Nat) : Int) = some r) ∧
    ∀ acc, ∃ fuel r, scanAux b fuel ((8 : Nat) : Int) acc = some r :=
  ⟨hwf.findIend_terminates, hwf.scan_terminates⟩

/-- C5 witness: the traversal of the minimal carrier terminates. -/
theorem traversal_terminates_of_wf_witness :
    (∃ fuel r, findIendAux tinyPng fuel ((8 : Nat) : Int) = some r) ∧
    ∀ acc, ∃ fuel r, scanAux tinyPng fuel ((8 : Nat) : Int) acc = some r :=
  traversal_terminates_of_wf tinyPng (ChunksWF.iend 8 (by decide) (by decide))

/-- C5 counterexample: on a signature-led stream whose length field has the
high bit set the length reads back as -12, the position step is stationary,
and both loops are still running after a million iterations. -/
theorem traversal_terminates_of_wf_cex :
    readLen negLenStream 8 = -12 ∧
    (8 : Int) + 8 + readLen negLenStream 8 + 4 = 8 ∧
    createTapeBlob 1000000 negLenStream Json.null = none ∧
    readTapeData 1000000 negLenStream = none := by
  refine ⟨by decide, by decide, ?_, ?_⟩
  · unfold createTapeBlob
    rw [if_neg (by decide), findIendAux_negLen_stuck 1000000]
  · unfold readTapeData
    rw [if_neg (by decide), scanAux_negLen_stuck 1000000 none]

/-- C6: corrected. A signature-led stream that the scan exhausts without
meeting an IEND chunk and without accumulating a payload yields the generic
noTapeData error: the source has no distinct UnexpectedEnd (truncated
stream) failure class. -/
theorem truncated_stream_not_distinguished (b : List Nat) (fuel : Nat)
    (hsig : b.take 8 = pngSignature)
    (hscan : scanAux b fuel 8 none = some (none, false)) :
    readTapeData fuel b = some (Except.error TapeErr.noTapeData) := by
  unfold readTapeData
  rw [if_neg (by simp [hsig]), hscan]

/-- C6 witness: the bare signature is exhausted immediately and reports
noTapeData. -/
theorem truncated_stream_not_distinguished_witness :
    readTapeData 1 pngSignature = some (Except.error TapeErr.noTapeData) :=
  truncated_stream_not_distinguished pngSignature 1 (by decide) (by decide)

/-- C6 counterexample: a truncated chunked stream, a stream whose declared
length reads past the end of the buffer, and a well-formed PNG with no tape
chunk all produce the very same noTapeData error value: truncation is not a
distinct failure class. -/
theorem truncated_stream_not_distinguished_cex :
    readTapeData 2 (pngSignature ++ [0, 0, 0])
      = some (Except.error TapeErr.noTapeData) ∧
    readTapeData 2 (pngSignature ++ [0, 0, 1, 0, 116, 69, 88, 116])
      = some (Except.error TapeErr.noTapeData) ∧
    readTapeData 1 tinyPng = some (Except.error TapeErr.noTapeData) :=
  ⟨by decide, by decide, by decide⟩

/-- C10: when the scan's accumulated payload is a falsy JSON value (null,
false, 0 or the empty string) the reader throws the generic not-found error
instead of returning the successfully parsed value, because the source gates
the result on the JavaScript truthiness of foundData. -/
theorem falsy_payload_rejected (b : List Nat) (fuel : Nat) (v : Json) (flag : Bool)
    (hsig : b.take 8 = pngSignature)
    (hscan : scanAux b fuel 8 none = some (some v, flag))
    (hfalsy : truthy v = false) :
    readTapeData fuel b = some (Except.error TapeErr.noTapeData) := by
  unfold readTapeData
  rw [if_neg (by simp [hsig]), hscan]
  simp [hfalsy]

/-- C10 witness: a complete tape card whose payload is null is rejected with
the not-found error. -/
theorem falsy_payload_rejected_witness :
    readTapeData 3 falsyTape = some (Except.error TapeErr.noTapeData) :=
  falsy_payload_rejected falsyTape 3 Json.null true (by decide) (by decide) rfl



/-! ## The embedding as a take/drop splice -/

theorem IendAt.ty {b : List Nat} {pos t : Nat} (h : IendAt b pos t) :
    typeAt b (t : Int) = iendType := by
  induction h with
  | here _ _ hty => exact hty
  | step _ _ _ _ _ _ _ ih => exact ih

theorem tapeChunk_length (p : Json) :
    (tapeChunk p).length = 12 + (15 + (utf8Encode (stringify p)).length) := by
  simp [tapeChunk, tapeChunkData, createChunk, be32, tEXtType, keywordBytes]
  omega

theorem createTapeBlob_eq (fuel : Nat) (b : List Nat) (t : Nat) (p : Json)
    (hsig : b.take 8 = pngSignature)
    (hf : findIendAux b fuel ((8 : Nat) : Int) = some (some ((t : Nat) : Int))) :
    createTapeBlob fuel b p
      = some (Except.ok (b.take t ++ tapeChunk p ++ b.drop t)) := by
  unfold createTapeBlob
  rw [if_neg (by simp [hsig]),
    show (8 : Int) = ((8 : Nat) : Int) by norm_num, hf]
  show some (Except.ok (jsSlice b 0 ((t : Nat) : Int) ++ tapeChunk p
      ++ jsSlice b ((t : Nat) : Int) (b.length : Int))) = _
  rw [show jsSlice b 0 ((t : Nat) : Int) = b.take t by
      rw [show (0 : Int) = ((0 : Nat) : Int) by norm_num, jsSlice_natCast,
        List.drop_zero],
    show jsSlice b ((t : Nat) : Int) (b.length : Int) = b.drop t by
      rw [jsSlice_natCast, List.take_length]]

/-- C2: on a carrier with the PNG signature whose chunk walk reaches an IEND
chunk at offset t, the embedder returns exactly
carrier.take t ++ new chunk ++ carrier.drop t: every original byte is kept
in order and the single new chunk sits immediately before the IEND chunk
(the model is pure, so the input buffer is untouched). -/
theorem embed_splices_before_iend (b : List Nat) (t : Nat) (p : Json)
    (hsig : b.take 8 = pngSignature) (hw : IendAt b 8 t) :
    ∃ fuel, createTapeBlob fuel b p
      = some (Except.ok (b.take t ++ tapeChunk p ++ b.drop t)) := by
  obtain ⟨fuel, hf⟩ := hw.findIend
  exact ⟨fuel, createTapeBlob_eq fuel b t p hsig hf⟩

/-- C2 witness: splicing the null payload into the minimal carrier at its
IEND offset 8. -/
theorem embed_splices_before_iend_witness :
    ∃ fuel, createTapeBlob fuel tinyPng Json.null
      = some (Except.ok (tinyPng.take 8 ++ tapeChunk Json.null ++ tinyPng.drop 8)) :=
  embed_splices_before_iend tinyPng 8 Json.null (by decide)
    (IendAt.here 8 (by decide) (by decide))



/-! ## Reading back an embedded payload -/

theorem readTape_of_embed (b : List Nat) (t : Nat) (p : Json)
    (hsig : b.take 8 = pngSignature) (hw : IendAt b 8 t)
    (hsize : 15 + (utf8Encode (stringify p)).length < 2147483648) :
    ∃ fuel, readTapeData fuel (b.take t ++ tapeChunk p ++ b.drop t)
      = if truthy p then some (Except.ok p)
        else some (Except.error TapeErr.noTapeData) := by
  have hbound : t + 8 ≤ b.length := hw.bound
  have h8t : 8 ≤ t := hw.le
  have hpre_len : (b.take t).length = t := by
    rw [List.length_take]
    omega
  have hout_len : (b.take t ++ tapeChunk p ++ b.drop t).length
      = t + (12 + (15 + (utf8Encode (stringify p)).length)) + (b.length - t) := by
    rw [List.length_append, List.length_append, hpre_len, tapeChunk_length,
      List.length_drop]
  have hout_pre : (b.take t ++ tapeChunk p ++ b.drop t).take t = b.take t := by
    rw [List.take_append_of_le_length (by rw [List.length_append, hpre_len]; omega),
      List.take_append_of_le_length (by rw [hpre_len]),
      List.take_take, min_self]
  have hsig_out : (b.take t ++ tapeChunk p ++ b.drop t).take 8 = pngSignature := by
    have h1 : (b.take t ++ tapeChunk p ++ b.drop t).take 8
        = ((b.take t ++ tapeChunk p ++ b.drop t).take t).take 8 := by
      rw [List.take_take, min_eq_left h8t]
    rw [h1, hout_pre, List.take_take, min_eq_left h8t, hsig]
  obtain ⟨n, acc', hn⟩ := scan_prefix_reaches hw
    (b.take t ++ tapeChunk p ++ b.drop t) hout_pre (by rw [hout_len]; omega) none
  have hstep : ∀ k, scanAux (b.take t ++ tapeChunk p ++ b.drop t) (k + 1)
        ((t : Nat) : Int) acc'
      = scanAux (b.take t ++ tapeChunk p ++ b.drop t) k
        ((t + 12 + (15 + (utf8Encode (stringify p)).length) : Nat) : Int) (some p) := by
    intro k
    have h := scanAux_text_chunk (b.take t) (utf8Encode (stringify p)) (b.drop t)
      acc' k hsize
    rw [hpre_len, utf8_roundtrip, jsonParse_stringify] at h
    exact h
  have hiend_ty : typeAt (b.take t ++ tapeChunk p ++ b.drop t)
      ((t + 12 + (15 + (utf8Encode (stringify p)).length) : Nat) : Int) = iendType := by
    have hb_ty : typeAt b ((t : Nat) : Int) = iendType := hw.ty
    rw [typeAt_natCast] at hb_ty
    have hre : b.take t ++ tapeChunk p ++ b.drop t
        = (b.take t ++ tapeChunk p) ++ b.drop t ++ [] := by simp
    rw [hre,
      show (t + 12 + (15 + (utf8Encode (stringify p)).length) : Nat)
        = (b.take t ++ tapeChunk p).length from by
          rw [List.length_append, hpre_len, tapeChunk_length]
          omega,
      typeAt_concat _ _ _ (by rw [List.length_drop]; omega),
      List.take_drop, List.drop_drop]
    exact hb_ty
  have hlt' : ((t + 12 + (15 + (utf8Encode (stringify p)).length) : Nat) : Int)
      < (b.take t ++ tapeChunk p ++ b.drop t).length := by
    rw [hout_len]
    push_cast
    omega
  have hlast : scanAux (b.take t ++ tapeChunk p ++ b.drop t) 1
      ((t + 12 + (15 + (utf8Encode (stringify p)).length) : Nat) : Int) (some p)
      = some (some p, true) := by
    have h := scanAux_at_iend (b.take t ++ tapeChunk p ++ b.drop t)
      (t + 12 + (15 + (utf8Encode (stringify p)).length)) (some p) 0 hlt' hiend_ty
    rw [hiend_ty, if_neg (by decide)] at h
    exact h
  refine ⟨n + 2, ?_⟩
  unfold readTapeData
  rw [if_neg (fun hne => hne hsig_out),
    show (8 : Int) = ((8 : Nat) : Int) by norm_num, hn 2,
    show (2 : Nat) = 1 + 1 from rfl, hstep 1, hlast]


/-- C1: corrected. For every carrier with the PNG signature whose chunk walk
reaches an IEND chunk at offset t, and every payload whose tEXt chunk fits
the length field and whose value is truthy, extraction after embedding
returns exactly the payload. (The unconditional claim fails: a falsy
JSON-serializable payload such as null is embedded but not extracted; see
the counterexample.) -/
theorem roundtrip_truthy_payload (b : List Nat) (t : Nat) (p : Json)
    (hsig : b.take 8 = pngSignature) (hw : IendAt b 8 t)
    (hsize : 15 + (utf8Encode (stringify p)).length < 2147483648)
    (htruthy : truthy p = true) :
    ∃ f1 f2, createTapeBlob f1 b p
        = some (Except.ok (b.take t ++ tapeChunk p ++ b.drop t)) ∧
      readTapeData f2 (b.take t ++ tapeChunk p ++ b.drop t)
        = some (Except.ok p) := by
  obtain ⟨f1, h1⟩ := hw.findIend
  obtain ⟨f2, h2⟩ := readTape_of_embed b t p hsig hw hsize
  rw [htruthy, if_pos rfl] at h2
  exact ⟨f1, f2, createTapeBlob_eq f1 b t p hsig h1, h2⟩

set_option maxRecDepth 100000

/-- C1 witness: embedding the truthy payload true into the minimal carrier
and reading it back. -/
theorem roundtrip_truthy_payload_witness :
    ∃ f1 f2, createTapeBlob f1 tinyPng (Json.bool true)
        = some (Except.ok (tinyPng.take 8 ++ tapeChunk (Json.bool true)
          ++ tinyPng.drop 8)) ∧
      readTapeData f2 (tinyPng.take 8 ++ tapeChunk (Json.bool true)
          ++ tinyPng.drop 8)
        = some (Except.ok (Json.bool true)) :=
  roundtrip_truthy_payload tinyPng 8 (Json.bool true) (by decide)
    (IendAt.here 8 (by decide) (by decide)) (by decide) rfl

/-- C1 counterexample: the JSON-serializable payload null is embedded into
the minimal carrier, but extraction reports the not-found error instead of
returning null. -/
theorem roundtrip_truthy_payload_cex :
    createTapeBlob 1 tinyPng Json.null
      = some (Except.ok (tinyPng.take 8 ++ tapeChunk Json.null ++ tinyPng.drop 8)) ∧
    readTapeData 3 (tinyPng.take 8 ++ tapeChunk Json.null ++ tinyPng.drop 8)
      = some (Except.error TapeErr.noTapeData) :=
  ⟨by decide, by decide⟩



/-- C3: corrected. On a stream carrying two sentinel-keyword tEXt chunks the
reader returns the payload of the LAST such chunk in stream order: the scan
does not stop at the first match but keeps overwriting the accumulator until
the IEND chunk. -/
theorem extract_last_match_wins (p1 p2 : Json)
    (h1 : 15 + (utf8Encode (stringify p1)).length < 2147483648)
    (h2 : 15 + (utf8Encode (stringify p2)).length < 2147483648) :
    readTapeData 3
        (pngSignature ++ tapeChunk p1 ++ tapeChunk p2 ++ createChunk iendType [])
      = if truthy p2 then some (Except.ok p2)
        else some (Except.error TapeErr.noTapeData) := by
  set b3 := pngSignature ++ tapeChunk p1 ++ tapeChunk p2 ++ createChunk iendType []
    with hb3
  have hpng8 : pngSignature.length = 8 := rfl
  have hassoc1 : b3 = pngSignature
      ++ createChunk tEXtType (keywordBytes ++ [0] ++ utf8Encode (stringify p1))
      ++ (tapeChunk p2 ++ createChunk iendType []) := by
    rw [hb3]
    simp [tapeChunk, tapeChunkData, List.append_assoc]
  have hassoc2 : b3 = (pngSignature ++ tapeChunk p1)
      ++ createChunk tEXtType (keywordBytes ++ [0] ++ utf8Encode (stringify p2))
      ++ createChunk iendType [] := by
    rw [hb3]
    simp [tapeChunk, tapeChunkData, List.append_assoc]
  have hassoc3 : b3 = (pngSignature ++ tapeChunk p1 ++ tapeChunk p2)
      ++ createChunk iendType [] ++ [] := by
    rw [hb3]
    simp
  have hA : scanAux b3 3 ((8 : Nat) : Int) none
      = scanAux b3 2
        ((8 + 12 + (15 + (utf8Encode (stringify p1)).length) : Nat) : Int)
        (some p1) := by
    have h := scanAux_text_chunk pngSignature (utf8Encode (stringify p1))
      (tapeChunk p2 ++ createChunk iendType []) none 2 h1
    rw [hpng8, utf8_roundtrip, jsonParse_stringify] at h
    rw [hassoc1]
    exact h
  have hB : scanAux b3 2
        ((8 + 12 + (15 + (utf8Encode (stringify p1)).length) : Nat) : Int)
        (some p1)
      = scanAux b3 1
        ((8 + 12 + (15 + (utf8Encode (stringify p1)).length)
          + 12 + (15 + (utf8Encode (stringify p2)).length) : Nat) : Int)
        (some p2) := by
    have h := scanAux_text_chunk (pngSignature ++ tapeChunk p1)
      (utf8Encode (stringify p2)) (createChunk iendType []) (some p1) 1 h2
    rw [show (pngSignature ++ tapeChunk p1).length
        = 8 + 12 + (15 + (utf8Encode (stringify p1)).length) from by
          rw [List.length_append, tapeChunk_length, hpng8]
          omega,
      utf8_roundtrip, jsonParse_stringify] at h
    rw [hassoc2]
    exact h
  have hpre3 : (pngSignature ++ tapeChunk p1 ++ tapeChunk p2).length
      = 8 + 12 + (15 + (utf8Encode (stringify p1)).length)
        + 12 + (15 + (utf8Encode (stringify p2)).length) := by
    rw [List.length_append, List.length_append, tapeChunk_length,
      tapeChunk_length, hpng8]
    omega
  have hty3 : typeAt b3
      ((8 + 12 + (15 + (utf8Encode (stringify p1)).length)
        + 12 + (15 + (utf8Encode (stringify p2)).length) : Nat) : Int) = iendType := by
    rw [hassoc3, ← hpre3, typeAt_concat _ _ _ (by decide)]
    decide
  have hlt3 : ((8 + 12 + (15 + (utf8Encode (stringify p1)).length)
        + 12 + (15 + (utf8Encode (stringify p2)).length) : Nat) : Int)
      < (b3.length : Int) := by
    rw [hb3, List.length_append, List.length_append, List.length_append,
      tapeChunk_length, tapeChunk_length,
      show (createChunk iendType []).length = 12 from by decide, hpng8]
    push_cast
    omega
  have hC : scanAux b3 1
      ((8 + 12 + (15 + (utf8Encode (stringify p1)).length)
        + 12 + (15 + (utf8Encode (stringify p2)).length) : Nat) : Int)
      (some p2) = some (some p2, true) := by
    have h := scanAux_at_iend b3
      (8 + 12 + (15 + (utf8Encode (stringify p1)).length)
        + 12 + (15 + (utf8Encode (stringify p2)).length)) (some p2) 0 hlt3 hty3
    rw [hty3, if_neg (by decide)] at h
    exact h
  have hsig3 : b3.take 8 = pngSignature := by
    rw [hb3,
      List.take_append_of_le_length (by
        rw [List.length_append, List.length_append, hpng8]; omega),
      List.take_append_of_le_length (by rw [List.length_append, hpng8]; omega),
      List.take_append_of_le_length (by rw [hpng8])]
    decide
  unfold readTapeData
  rw [if_neg (fun hne => hne hsig3),
    show (8 : Int) = ((8 : Nat) : Int) by norm_num, hA, hB, hC]

/-- C3 witness: with the string payloads "A" then "B" the reader returns
"B". -/
theorem extract_last_match_wins_witness :
    readTapeData 3
        (pngSignature ++ tapeChunk (Json.str ('A' :: []))
          ++ tapeChunk (Json.str ('B' :: [])) ++ createChunk iendType [])
      = if truthy (Json.str ('B' :: [])) then some (Except.ok (Json.str ('B' :: [])))
        else some (Except.error TapeErr.noTapeData) :=
  extract_last_match_wins (Json.str ('A' :: [])) (Json.str ('B' :: []))
    (by decide) (by decide)

/-- C3 counterexample: with payloads "A" then "B" in stream order the reader
returns "B", not the first match "A". -/
theorem extract_last_match_wins_cex :
    readTapeData 3
        (pngSignature ++ tapeChunk (Json.str ('A' :: []))
          ++ tapeChunk (Json.str ('B' :: [])) ++ createChunk iendType [])
      = some (Except.ok (Json.str ('B' :: []))) ∧
    Json.str ('B' :: []) ≠ Json.str ('A' :: []) :=
  ⟨by decide, by decide⟩



/-- C4: corrected. When the single sentinel-keyword tEXt chunk carries value
bytes that do not parse as JSON, the reader silently keeps scanning and ends
with the generic noTapeData error: the source has no distinct CorruptPayload
failure class. -/
theorem corrupt_payload_not_distinguished (val : List Nat)
    (hbad : jsonParse (utf8Decode val) = none)
    (hsize : 15 + val.length < 2147483648) :
    readTapeData 2
        (pngSignature ++ createChunk tEXtType (keywordBytes ++ [0] ++ val)
          ++ createChunk iendType [])
      = some (Except.error TapeErr.noTapeData) := by
  set b4 := pngSignature ++ createChunk tEXtType (keywordBytes ++ [0] ++ val)
    ++ createChunk iendType [] with hb4
  have hpng8 : pngSignature.length = 8 := rfl
  have hassoc1 : b4 = pngSignature
      ++ createChunk tEXtType (keywordBytes ++ [0] ++ val)
      ++ createChunk iendType [] := hb4
  have hA : scanAux b4 2 ((8 : Nat) : Int) none
      = scanAux b4 1 ((8 + 12 + (15 + val.length) : Nat) : Int) none := by
    have h := scanAux_text_chunk pngSignature val (createChunk iendType [])
      none 1 hsize
    rw [hpng8, hbad] at h
    rw [hassoc1]
    exact h
  have hpre2 : (pngSignature ++ createChunk tEXtType (keywordBytes ++ [0] ++ val)).length
      = 8 + 12 + (15 + val.length) := by
    rw [List.length_append, hpng8,
      show (createChunk tEXtType (keywordBytes ++ [0] ++ val)).length
        = 12 + (15 + val.length) from by
          simp [createChunk, be32, tEXtType, keywordBytes]
          omega]
    omega
  have hassoc2 : b4 = (pngSignature ++ createChunk tEXtType (keywordBytes ++ [0] ++ val))
      ++ createChunk iendType [] ++ [] := by
    rw [hb4]
    simp
  have hty2 : typeAt b4 ((8 + 12 + (15 + val.length) : Nat) : Int) = iendType := by
    rw [hassoc2, ← hpre2, typeAt_concat _ _ _ (by decide)]
    decide
  have hlt2 : ((8 + 12 + (15 + val.length) : Nat) : Int) < (b4.length : Int) := by
    rw [hb4, List.length_append, List.length_append, hpng8,
      show (createChunk tEXtType (keywordBytes ++ [0] ++ val)).length
        = 12 + (15 + val.length) from by
          simp [createChunk, be32, tEXtType, keywordBytes]
          omega,
      show (createChunk iendType []).length = 12 from by decide]
    push_cast
    omega
  have hB : scanAux b4 1 ((8 + 12 + (15 + val.length) : Nat) : Int) none
      = some (none, true) := by
    have h := scanAux_at_iend b4 (8 + 12 + (15 + val.length)) none 0 hlt2 hty2
    rw [hty2, if_neg (by decide)] at h
    exact h
  have hsig4 : b4.take 8 = pngSignature := by
    rw [hb4,
      List.take_append_of_le_length (by rw [List.length_append, hpng8]; omega),
      List.take_append_of_le_length (by rw [hpng8])]
    decide
  unfold readTapeData
  rw [if_neg (fun hne => hne hsig4),
    show (8 : Int) = ((8 : Nat) : Int) by norm_num, hA, hB]

/-- C4 witness: a chunk whose value is the single byte of an opening brace
fails JSON parsing and the reader reports noTapeData. -/
theorem corrupt_payload_not_distinguished_witness :
    readTapeData 2
        (pngSignature ++ createChunk tEXtType (keywordBytes ++ [0] ++ [123])
          ++ createChunk iendType [])
      = some (Except.error TapeErr.noTapeData) :=
  corrupt_payload_not_distinguished [123] (by decide) (by decide)

/-- C4 counterexample: the corrupt-payload stream and a well-formed PNG with
no tape chunk at all produce the very same noTapeData error value: payload
corruption is not a distinct failure class. -/
theorem corrupt_payload_not_distinguished_cex :
    readTapeData 2
        (pngSignature ++ createChunk tEXtType (keywordBytes ++ [0] ++ [123])
          ++ createChunk iendType [])
      = some (Except.error TapeErr.noTapeData) ∧
    readTapeData 2 tinyPng = some (Except.error TapeErr.noTapeData) :=
  ⟨by decide, by decide⟩


end Tape
